import Mathlib

/-!
Verification development for the interactive campus navigation program
(`src/app.py`).  The Python model layer (`Graph`, `Node`, `Edge`) and the
traversal engine (`App._bfs`, `App._dfs`, `App._reconstruct_path`,
`App._print_result`) are shallowly embedded below.

Embedding conventions:
* Python `dict`s preserve insertion order, so `Graph.nodes` and `Graph.edges`
  are association lists in insertion order; lookup returns the first binding.
* Python `float` weights are modelled as `ℚ`; the program only compares them
  with `0` and adds them, which the rationals model exactly.
* Python `raise ValueError(...)` is modelled by returning the state at the
  raise site together with an `Err` value naming the raise site; the string
  payloads of the messages are dropped.
* GUI-only fields (`canvas_id`, `label_id`, `line_id`) and GUI-only methods
  are not part of the model.
* The unbounded `while` loops / recursion of `_bfs`, `_dfs` and
  `_reconstruct_path` are modelled with an explicit fuel argument; the fuel
  chosen by the wrappers is proved sufficient below, so the fuel-exhausted
  branches are unreachable on every input.
-/

/-- First binding of key `k` in an insertion-ordered association list;
models Python `dict` lookup / `dict.get`. -/
def assocFind {α β : Type} [DecidableEq α] : List (α × β) → α → Option β
  | [], _ => none
  | (a, b) :: t, k => if k = a then some b else assocFind t k

/-- Update the binding of `k` in place, or append a fresh binding;
models Python `dict` assignment `d[k] = v`. -/
def assocSet {α β : Type} [DecidableEq α] : List (α × β) → α → β → List (α × β)
  | [], k, v => [(k, v)]
  | (a, b) :: t, k, v => if k = a then (k, v) :: t else (a, b) :: assocSet t k v

/-- Remove the first binding of `k`; models Python `del d[k]`. -/
def assocErase {α β : Type} [DecidableEq α] : List (α × β) → α → List (α × β)
  | [], _ => []
  | (a, b) :: t, k => if k = a then t else (a, b) :: assocErase t k

/-- `Node` dataclass of `src/app.py` (GUI canvas ids omitted). -/
structure Node where
  name : String
  x : Int
  y : Int
  weight : ℚ := 1
deriving DecidableEq

/-- `Edge` dataclass of `src/app.py` (GUI canvas ids omitted).  Note that the
original `u`/`v` argument order of `add_edge` is stored, even though the
dictionary key is the normalized (sorted) pair. -/
structure Edge where
  u : String
  v : String
  distance : ℚ := 1
  time : ℚ := 1
  accessible : Bool := true
  closed : Bool := false
deriving DecidableEq

/-- The `Graph` class state: `nodes` maps building name to `Node`, `edges`
maps the normalized name pair to `Edge`; both in insertion order. -/
structure Graph where
  nodes : List (String × Node) := []
  edges : List ((String × String) × Edge) := []
deriving DecidableEq

def Graph.empty : Graph := ⟨[], []⟩

/-- The distinct `raise ValueError(...)` sites of the model layer. -/
inductive Err where
  | emptyName | duplicateNode | nodeNotFound
  | selfLoop | endpointMissing | duplicateEdge | invalidWeight | edgeNotFound
deriving DecidableEq

/-- `tuple(sorted((a, b)))` for a two-element tuple: Python's stable sort
swaps the pair exactly when `b < a`.  String comparison is code-point
lexicographic; it is phrased on `.data` (to which core's `String` order is
definitionally equal) so that it evaluates inside the kernel. -/
def normPair (a b : String) : String × String :=
  if b.data < a.data then (b, a) else (a, b)

/-- `Graph.add_node`: reject empty/whitespace-only and duplicate names,
otherwise append the node.  Result is the state at return/raise time plus
the outcome.  Python's `not name or name.strip() == ""` is modelled as
"`name` is empty or consists of whitespace characters only". -/
def Graph.add_node (g : Graph) (name : String) (x y : Int) :
    Graph × Except Err Unit :=
  if name = "" ∨ name.data.all Char.isWhitespace then (g, .error .emptyName)
  else if (assocFind g.nodes name).isSome then (g, .error .duplicateNode)
  else ({ g with nodes := g.nodes ++ [(name, { name := name, x := x, y := y })] },
        .ok ())

/-- `Graph.delete_node`: remove the node and every edge whose key mentions
it, returning how many edges were removed. -/
def Graph.delete_node (g : Graph) (name : String) : Graph × Except Err Nat :=
  if (assocFind g.nodes name).isNone then (g, .error .nodeNotFound)
  else
    let deleted := g.edges.filter (fun p => decide (p.1.1 = name ∨ p.1.2 = name))
    let remaining := g.edges.filter (fun p => !decide (p.1.1 = name ∨ p.1.2 = name))
    ({ nodes := assocErase g.nodes name, edges := remaining }, .ok deleted.length)

/-- `Graph.add_edge`: validations in source order (self-loop, endpoints
exist, duplicate normalized key, positive weights), then insert with
`closed = false`. -/
def Graph.add_edge (g : Graph) (u v : String) (distance time : ℚ)
    (accessible : Bool) : Graph × Except Err Unit :=
  if u = v then (g, .error .selfLoop)
  else if (assocFind g.nodes u).isNone ∨ (assocFind g.nodes v).isNone then
    (g, .error .endpointMissing)
  else if (assocFind g.edges (normPair u v)).isSome then (g, .error .duplicateEdge)
  else if distance ≤ 0 ∨ time ≤ 0 then (g, .error .invalidWeight)
  else ({ g with edges := g.edges ++
          [(normPair u v,
            { u := u, v := v, distance := distance, time := time,
              accessible := accessible, closed := false })] }, .ok ())

/-- `Graph.delete_edge`: remove the edge under the normalized key. -/
def Graph.delete_edge (g : Graph) (u v : String) : Graph × Except Err Unit :=
  if (assocFind g.edges (normPair u v)).isNone then (g, .error .edgeNotFound)
  else ({ g with edges := assocErase g.edges (normPair u v) }, .ok ())

/-- `Graph.neighbors`: walk the edge map in insertion order, skip closed
edges (and non-accessible ones in accessible-only mode), and collect the
other endpoint of each edge incident to `name`. -/
def Graph.neighbors (g : Graph) (name : String) (accessible_only : Bool) :
    List String :=
  g.edges.filterMap (fun p =>
    if p.2.closed then none
    else if accessible_only && !p.2.accessible then none
    else if p.1.1 = name then some p.1.2
    else if p.1.2 = name then some p.1.1
    else none)

/-- `Graph.get_edge`: lookup under the normalized pair; total, never raises. -/
def Graph.get_edge (g : Graph) (a b : String) : Option Edge :=
  assocFind g.edges (normPair a b)

/-- All names occurring as a component of some edge key (deduplicated).
Not part of the source; used only to size the traversal fuel. -/
def Graph.touches (g : Graph) : List String :=
  (g.edges.map (fun p => p.1.1) ++ g.edges.map (fun p => p.1.2)).dedup

/-- The edge filter both traversals apply when scanning a neighbor `b` of
`a`: the edge under the normalized pair exists, is not closed, and is
accessible when in accessible-only mode. -/
def traversable (g : Graph) (acc : Bool) (a b : String) : Bool :=
  match g.get_edge a b with
  | none => false
  | some e => !e.closed && (!acc || e.accessible)

/-- Parent maps of the traversals: `Dict[str, Optional[str]]`. -/
abbrev PMap := List (String × Option String)

/-- One pass of the BFS inner `for w in neighbors(u)` loop, threading
`(visited, parent, queue)` exactly as `App._bfs` does. -/
def bfsScan (g : Graph) (acc : Bool) (u : String) :
    List String → List String × PMap × List String →
    List String × PMap × List String
  | [], st => st
  | w :: ws, (vis, par, q) =>
    let st :=
      match g.get_edge u w with
      | none => (vis, par, q)
      | some e =>
        if e.closed || (acc && !e.accessible) then (vis, par, q)
        else if w ∈ vis then (vis, par, q)
        else (w :: vis, assocSet par w (some u), q ++ [w])
    bfsScan g acc u ws st

/-- The BFS `while q:` loop of `App._bfs`.  Fuel counts dequeues; `none`
models non-termination and is proved unreachable for the fuel used by
`bfs`. -/
def bfsLoop (g : Graph) (goal : String) (acc : Bool) :
    Nat → List String → List String → PMap → List String →
    Option (List String × PMap)
  | _, [], _, par, order => some (order, par)
  | 0, _ :: _, _, _, _ => none
  | fuel + 1, u :: qs, vis, par, order =>
    let order' := order ++ [u]
    if u = goal then some (order', par)
    else
      let st := bfsScan g acc u (g.neighbors u acc) (vis, par, qs)
      bfsLoop g goal acc fuel st.2.2 st.1 st.2.1 order'

/-- The backward walk of `App._reconstruct_path`: follow parents from `cur`
until a `None` parent.  `none` models a `KeyError` or a non-terminating
walk; both are proved unreachable for the parent maps the traversals
build. -/
def backSteps (par : PMap) : Nat → String → Option (List String)
  | 0, _ => none
  | n + 1, cur =>
    match assocFind par cur with
    | none => none
    | some none => some [cur]
    | some (some u) => (backSteps par n u).map (fun l => cur :: l)

/-- `App._reconstruct_path`: empty when `goal` has no parent entry;
otherwise walk back to the root, reverse, and keep the result only when it
starts at `start`. -/
def reconstructPath (par : PMap) (start goal : String) : List String :=
  match assocFind par goal with
  | none => []
  | some _ =>
    match backSteps par (par.length + 1) goal with
    | none => []
    | some l =>
      let path := l.reverse
      if path.head? = some start then path else []

/-- `App._bfs`: returns `(visited_order, path)`. -/
def bfs (g : Graph) (start goal : String) (acc : Bool) :
    List String × List String :=
  match bfsLoop g goal acc (g.touches.length + 1) [start] [start]
      [(start, none)] [] with
  | none => ([], [])
  | some (order, par) => (order, reconstructPath par start goal)

/-- The mutable state threaded through `App._dfs`'s recursive helper. -/
structure DfsState where
  visited : List String
  order : List String
  parent : PMap
  found : Bool
deriving DecidableEq

/-- The `for w in neighbors(u)` loop of the DFS helper `rec`, parametrized
by the recursive visit (`rec` itself at the remaining fuel). -/
def dfsNbrs (g : Graph) (acc : Bool)
    (visit : String → DfsState → Option DfsState) (u : String) :
    List String → DfsState → Option DfsState
  | [], s => some s
  | w :: ws, s =>
    match g.get_edge u w with
    | none => dfsNbrs g acc visit u ws s
    | some e =>
      if e.closed || (acc && !e.accessible) then dfsNbrs g acc visit u ws s
      else if w ∈ s.visited then dfsNbrs g acc visit u ws s
      else
        match visit w { s with parent := assocSet s.parent w (some u) } with
        | none => none
        | some s' => dfsNbrs g acc visit u ws s'

/-- The recursive helper `rec` of `App._dfs`.  Fuel counts nested visit
calls; `none` models non-termination and is proved unreachable for the
fuel used by `dfs`. -/
def dfsVisit (g : Graph) (goal : String) (acc : Bool) :
    Nat → String → DfsState → Option DfsState
  | 0, _, _ => none
  | fuel + 1, u, s =>
    if s.found then some s
    else
      let s1 : DfsState :=
        { s with visited := u :: s.visited, order := s.order ++ [u] }
      if u = goal then some { s1 with found := true }
      else dfsNbrs g acc (dfsVisit g goal acc fuel) u (g.neighbors u acc) s1

/-- `App._dfs`: returns `(visited_order, path)`; the path is reconstructed
only when the goal was found. -/
def dfs (g : Graph) (start goal : String) (acc : Bool) :
    List String × List String :=
  match dfsVisit g goal acc (g.touches.length + 1) start
      { visited := [], order := [], parent := [(start, none)], found := false } with
  | none => ([], [])
  | some s =>
    (s.order, if s.found then reconstructPath s.parent start goal else [])

/-- The totals computed by `App._print_result` over a path: sum `distance`
and `time` over the edge of each consecutive pair, skipping pairs with no
edge (the source guards with `if e:`). -/
def pathTotals (g : Graph) : List String → ℚ × ℚ
  | a :: b :: rest =>
    let r := pathTotals g (b :: rest)
    match g.get_edge a b with
    | none => r
    | some e => (e.distance + r.1, e.time + r.2)
  | _ => (0, 0)

/-! ### Association-list lemmas -/

theorem assocFind_append {α β : Type} [DecidableEq α] (l l' : List (α × β)) (k : α) :
    assocFind (l ++ l') k =
      match assocFind l k with
      | some v => some v
      | none => assocFind l' k := by
  induction l with
  | nil => simp [assocFind]
  | cons p t ih =>
    obtain ⟨a, b⟩ := p
    by_cases h : k = a <;> simp [assocFind, h, ih]

theorem assocFind_isSome_iff {α β : Type} [DecidableEq α]
    (l : List (α × β)) (k : α) :
    (assocFind l k).isSome ↔ k ∈ l.map Prod.fst := by
  induction l with
  | nil => simp [assocFind]
  | cons p t ih =>
    obtain ⟨a, b⟩ := p
    by_cases h : k = a <;> simp [assocFind, h, ih]

theorem assocFind_mem {α β : Type} [DecidableEq α]
    {l : List (α × β)} {k : α} {b : β} (h : assocFind l k = some b) :
    (k, b) ∈ l := by
  induction l with
  | nil => simp [assocFind] at h
  | cons p t ih =>
    obtain ⟨a, c⟩ := p
    by_cases hk : k = a
    · subst hk
      have hcb : some c = some b := by simpa [assocFind] using h
      obtain rfl := Option.some.inj hcb
      exact List.mem_cons_self _ _
    · simp only [assocFind, if_neg hk] at h
      exact List.mem_cons_of_mem _ (ih h)

theorem assocFind_eq_of_mem {α β : Type} [DecidableEq α]
    {l : List (α × β)} {k : α} {b : β}
    (hnd : (l.map Prod.fst).Nodup) (h : (k, b) ∈ l) :
    assocFind l k = some b := by
  induction l with
  | nil => simp at h
  | cons p t ih =>
    obtain ⟨a, c⟩ := p
    rw [List.map_cons, List.nodup_cons] at hnd
    rcases List.mem_cons.1 h with h1 | h1
    · simp only [Prod.mk.injEq] at h1
      obtain ⟨rfl, rfl⟩ := h1
      simp [assocFind]
    · have hka : k ≠ a := by
        rintro rfl
        exact hnd.1 (List.mem_map.2 ⟨(k, b), h1, rfl⟩)
      simpa [assocFind, hka] using ih hnd.2 h1

theorem assocSet_cons_self {α β : Type} [DecidableEq α]
    (a : α) (b v : β) (t : List (α × β)) :
    assocSet ((a, b) :: t) a v = (a, v) :: t := by
  simp [assocSet]

theorem assocSet_cons_ne {α β : Type} [DecidableEq α]
    {k a : α} (h : k ≠ a) (b v : β) (t : List (α × β)) :
    assocSet ((a, b) :: t) k v = (a, b) :: assocSet t k v := by
  simp [assocSet, h]

theorem assocFind_cons_self {α β : Type} [DecidableEq α]
    (a : α) (b : β) (t : List (α × β)) :
    assocFind ((a, b) :: t) a = some b := by
  simp [assocFind]

theorem assocFind_cons_ne {α β : Type} [DecidableEq α]
    {k a : α} (h : k ≠ a) (b : β) (t : List (α × β)) :
    assocFind ((a, b) :: t) k = assocFind t k := by
  simp [assocFind, h]

theorem assocFind_assocSet_self {α β : Type} [DecidableEq α]
    (l : List (α × β)) (k : α) (v : β) :
    assocFind (assocSet l k v) k = some v := by
  induction l with
  | nil => simp [assocSet, assocFind]
  | cons p t ih =>
    obtain ⟨a, b⟩ := p
    by_cases h : k = a
    · subst h
      rw [assocSet_cons_self, assocFind_cons_self]
    · rw [assocSet_cons_ne h, assocFind_cons_ne h]
      exact ih

theorem assocFind_assocSet_ne {α β : Type} [DecidableEq α]
    (l : List (α × β)) (k k' : α) (v : β) (h : k' ≠ k) :
    assocFind (assocSet l k v) k' = assocFind l k' := by
  induction l with
  | nil => simp [assocSet, assocFind, h]
  | cons p t ih =>
    obtain ⟨a, b⟩ := p
    by_cases hka : k = a
    · subst hka
      rw [assocSet_cons_self, assocFind_cons_ne h, assocFind_cons_ne h]
    · rw [assocSet_cons_ne hka]
      by_cases hk'a : k' = a
      · subst hk'a
        rw [assocFind_cons_self, assocFind_cons_self]
      · rw [assocFind_cons_ne hk'a, assocFind_cons_ne hk'a]
        exact ih

theorem assocSet_keys {α β : Type} [DecidableEq α]
    (l : List (α × β)) (k : α) (v : β) (x : α) :
    x ∈ (assocSet l k v).map Prod.fst ↔ x = k ∨ x ∈ l.map Prod.fst := by
  induction l with
  | nil => simp [assocSet]
  | cons p t ih =>
    obtain ⟨a, b⟩ := p
    by_cases h : k = a
    · subst h
      rw [assocSet_cons_self]
      simp
    · rw [assocSet_cons_ne h]
      simp only [List.map_cons, List.mem_cons, ih]
      tauto

theorem assocSet_keys_nodup {α β : Type} [DecidableEq α]
    (l : List (α × β)) (k : α) (v : β) (hnd : (l.map Prod.fst).Nodup) :
    ((assocSet l k v).map Prod.fst).Nodup := by
  induction l with
  | nil => simp [assocSet]
  | cons p t ih =>
    obtain ⟨a, b⟩ := p
    rw [List.map_cons, List.nodup_cons] at hnd
    by_cases h : k = a
    · subst h
      rw [assocSet_cons_self, List.map_cons, List.nodup_cons]
      exact hnd
    · rw [assocSet_cons_ne h, List.map_cons, List.nodup_cons]
      refine ⟨?_, ih hnd.2⟩
      intro hmem
      rcases (assocSet_keys t k v a).1 hmem with h1 | h1
      · exact h h1.symm
      · exact hnd.1 h1

theorem assocErase_cons_self {α β : Type} [DecidableEq α]
    (a : α) (b : β) (t : List (α × β)) :
    assocErase ((a, b) :: t) a = t := by
  simp [assocErase]

theorem assocErase_cons_ne {α β : Type} [DecidableEq α]
    {k a : α} (h : k ≠ a) (b : β) (t : List (α × β)) :
    assocErase ((a, b) :: t) k = (a, b) :: assocErase t k := by
  simp [assocErase, h]

theorem assocErase_find_self {α β : Type} [DecidableEq α]
    (l : List (α × β)) (k : α) (hnd : (l.map Prod.fst).Nodup) :
    assocFind (assocErase l k) k = none := by
  induction l with
  | nil => simp [assocErase, assocFind]
  | cons p t ih =>
    obtain ⟨a, b⟩ := p
    rw [List.map_cons, List.nodup_cons] at hnd
    by_cases h : k = a
    · subst h
      rw [assocErase_cons_self]
      cases ho : assocFind t k with
      | none => rfl
      | some w => exact absurd (List.mem_map.2 ⟨(k, w), assocFind_mem ho, rfl⟩) hnd.1
    · rw [assocErase_cons_ne h, assocFind_cons_ne h]
      exact ih hnd.2

theorem assocErase_find_ne {α β : Type} [DecidableEq α]
    (l : List (α × β)) (k k' : α) (h : k' ≠ k) :
    assocFind (assocErase l k) k' = assocFind l k' := by
  induction l with
  | nil => simp [assocErase]
  | cons p t ih =>
    obtain ⟨a, b⟩ := p
    by_cases hka : k = a
    · subst hka
      rw [assocErase_cons_self, assocFind_cons_ne h]
    · rw [assocErase_cons_ne hka]
      by_cases hk'a : k' = a
      · subst hk'a
        rw [assocFind_cons_self, assocFind_cons_self]
      · rw [assocFind_cons_ne hk'a, assocFind_cons_ne hk'a]
        exact ih

theorem normPair_comm (a b : String) : normPair a b = normPair b a := by
  unfold normPair
  rcases lt_trichotomy a.data b.data with h | h | h
  · simp [h, asymm h, not_lt_of_lt h]
  · have hab : a = b := by
      cases a
      cases b
      exact congrArg String.mk h
    simp [hab]
  · simp [h, asymm h, not_lt_of_lt h]

/-! ### Contracts of the mutating model operations (claims C4, C5, C6, C7) -/

/-- Shared characterization of the self-loop failure of `add_edge`. -/
theorem add_edge_selfLoop_eq (g : Graph) (u v : String) (d t : ℚ) (a : Bool)
    (h : u = v) : g.add_edge u v d t a = (g, .error .selfLoop) := by
  simp [Graph.add_edge, h]

/-- Shared characterization of the missing-endpoint failure of `add_edge`. -/
theorem add_edge_missing_eq (g : Graph) (u v : String) (d t : ℚ) (a : Bool)
    (h : u ≠ v)
    (hm : assocFind g.nodes u = none ∨ assocFind g.nodes v = none) :
    g.add_edge u v d t a = (g, .error .endpointMissing) := by
  simp [Graph.add_edge, h, Option.isNone_iff_eq_none, hm]

/-- Shared characterization of the non-positive-weight failure of
`add_edge`. -/
theorem add_edge_invalid_eq (g : Graph) (u v : String) (d t : ℚ) (a : Bool)
    (h : u ≠ v) (hu : assocFind g.nodes u ≠ none)
    (hv : assocFind g.nodes v ≠ none)
    (hfree : assocFind g.edges (normPair u v) = none)
    (hw : d ≤ 0 ∨ t ≤ 0) :
    g.add_edge u v d t a = (g, .error .invalidWeight) := by
  simp [Graph.add_edge, h, Option.isNone_iff_eq_none, hu, hv,
    Option.isSome_iff_ne_none, hfree, hw]

/-- Shared characterization of a successful `add_edge`. -/
theorem add_edge_success_eq (g : Graph) (u v : String) (d t : ℚ) (a : Bool)
    (h : u ≠ v) (hu : assocFind g.nodes u ≠ none)
    (hv : assocFind g.nodes v ≠ none)
    (hfree : assocFind g.edges (normPair u v) = none)
    (hd : 0 < d) (ht : 0 < t) :
    g.add_edge u v d t a =
      ({ g with edges := g.edges ++
          [(normPair u v,
            { u := u, v := v, distance := d, time := t,
              accessible := a, closed := false })] }, .ok ()) := by
  have hd' : ¬(d ≤ 0 ∨ t ≤ 0) := by
    push_neg
    exact ⟨hd, ht⟩
  simp only [Graph.add_edge, if_neg h]
  rw [if_neg (by simp [Option.isNone_iff_eq_none, hu, hv]),
      if_neg (by simp [Option.isSome_iff_ne_none, hfree]), if_neg hd']

/-- Shared characterization of the duplicate-pair failure of `add_edge`. -/
theorem add_edge_dup_eq (g : Graph) (u v : String) (d t : ℚ) (a : Bool)
    (h : u ≠ v) (hu : assocFind g.nodes u ≠ none)
    (hv : assocFind g.nodes v ≠ none)
    (hdup : assocFind g.edges (normPair u v) ≠ none) :
    g.add_edge u v d t a = (g, .error .duplicateEdge) := by
  simp [Graph.add_edge, h, Option.isNone_iff_eq_none, hu, hv,
    Option.isSome_iff_ne_none, hdup]

/-- C4: `add_edge` validation and insertion contract.  The five conjuncts
follow the source's check order: self-loop, missing endpoint, duplicate
normalized pair, non-positive weight, and the successful insertion, which
appends exactly one edge under the normalized key with the given data and
`closed = false`, leaving nodes and all other edge keys unchanged. -/
theorem add_edge_contract (g : Graph) (u v : String) (d t : ℚ) (a : Bool) :
    (u = v → g.add_edge u v d t a = (g, .error .selfLoop)) ∧
    (u ≠ v → (assocFind g.nodes u = none ∨ assocFind g.nodes v = none) →
      g.add_edge u v d t a = (g, .error .endpointMissing)) ∧
    (u ≠ v → assocFind g.nodes u ≠ none → assocFind g.nodes v ≠ none →
      assocFind g.edges (normPair u v) ≠ none →
      g.add_edge u v d t a = (g, .error .duplicateEdge)) ∧
    (u ≠ v → assocFind g.nodes u ≠ none → assocFind g.nodes v ≠ none →
      assocFind g.edges (normPair u v) = none → (d ≤ 0 ∨ t ≤ 0) →
      g.add_edge u v d t a = (g, .error .invalidWeight)) ∧
    (u ≠ v → assocFind g.nodes u ≠ none → assocFind g.nodes v ≠ none →
      assocFind g.edges (normPair u v) = none → 0 < d → 0 < t →
      (g.add_edge u v d t a).2 = .ok () ∧
      (g.add_edge u v d t a).1.nodes = g.nodes ∧
      (g.add_edge u v d t a).1.edges.length = g.edges.length + 1 ∧
      (g.add_edge u v d t a).1.get_edge u v =
        some { u := u, v := v, distance := d, time := t,
               accessible := a, closed := false } ∧
      (∀ k, k ≠ normPair u v →
        assocFind (g.add_edge u v d t a).1.edges k = assocFind g.edges k)) := by
  refine ⟨?_, ?_, ?_, ?_, ?_⟩
  · intro h
    simp [Graph.add_edge, h]
  · intro h hm
    simp [Graph.add_edge, h, Option.isNone_iff_eq_none, hm]
  · intro h hu hv hdup
    exact add_edge_dup_eq g u v d t a h hu hv hdup
  · intro h hu hv hdup hw
    simp [Graph.add_edge, h, Option.isNone_iff_eq_none, hu, hv,
      Option.isSome_iff_ne_none, hdup, hw]
  · intro h hu hv hdup hd ht
    rw [add_edge_success_eq g u v d t a h hu hv hdup hd ht]
    refine ⟨rfl, rfl, by simp, ?_, ?_⟩
    · show assocFind (g.edges ++ [(normPair u v, _)]) (normPair u v) = _
      rw [assocFind_append, hdup, assocFind_cons_self]
    · intro k hk
      show assocFind (g.edges ++ [(normPair u v, _)]) k = _
      rw [assocFind_append]
      cases hf : assocFind g.edges k with
      | none => simp [assocFind, hk]
      | some e => rfl

/-- C5: `delete_node` contract.  On a present name it removes that node and
exactly the incident edges (membership is characterized in both
directions, so afterwards no edge mentions the name), returns the
removed-edge count; on an absent name it fails with the model unchanged. -/
theorem delete_node_contract (g : Graph) (name : String)
    (hnd : (g.nodes.map Prod.fst).Nodup) :
    (assocFind g.nodes name = none →
      g.delete_node name = (g, .error .nodeNotFound)) ∧
    (assocFind g.nodes name ≠ none →
      ∃ g' k, g.delete_node name = (g', .ok k) ∧
        assocFind g'.nodes name = none ∧
        (∀ m, m ≠ name → assocFind g'.nodes m = assocFind g.nodes m) ∧
        (∀ p, p ∈ g'.edges ↔ p ∈ g.edges ∧ p.1.1 ≠ name ∧ p.1.2 ≠ name) ∧
        (∀ p ∈ g'.edges, p.1.1 ≠ name ∧ p.1.2 ≠ name) ∧
        k + g'.edges.length = g.edges.length) := by
  constructor
  · intro h
    simp [Graph.delete_node, Option.isNone_iff_eq_none, h]
  · intro h
    have hresult : g.delete_node name =
        ({ nodes := assocErase g.nodes name,
           edges := g.edges.filter (fun p => !decide (p.1.1 = name ∨ p.1.2 = name)) },
         .ok (g.edges.filter (fun p => decide (p.1.1 = name ∨ p.1.2 = name))).length) := by
      simp only [Graph.delete_node]
      rw [if_neg (by simp [Option.isNone_iff_eq_none, h])]
    refine ⟨_, _, hresult, ?_, ?_, ?_, ?_, ?_⟩
    · exact assocErase_find_self _ _ hnd
    · intro m hm
      exact assocErase_find_ne _ _ _ hm
    · intro p
      simp only [List.mem_filter, Bool.not_eq_true', decide_eq_false_iff_not]
      tauto
    · intro p hp
      simp only [List.mem_filter, Bool.not_eq_true', decide_eq_false_iff_not] at hp
      tauto
    · have := g.edges.length_eq_length_filter_add
        (fun p => decide (p.1.1 = name ∨ p.1.2 = name))
      simpa using this.symm

/-- C6: every mutating operation leaves the model exactly as it was
whenever it reports a validation error: in the source all checks precede
the first mutation. -/
theorem mutators_atomic (g : Graph) :
    (∀ name x y e, (g.add_node name x y).2 = .error e →
      (g.add_node name x y).1 = g) ∧
    (∀ name e, (g.delete_node name).2 = .error e → (g.delete_node name).1 = g) ∧
    (∀ u v e, (g.delete_edge u v).2 = .error e → (g.delete_edge u v).1 = g) ∧
    (∀ u v d t a e, (g.add_edge u v d t a).2 = .error e →
      (g.add_edge u v d t a).1 = g) := by
  refine ⟨?_, ?_, ?_, ?_⟩
  · intro name x y e he
    unfold Graph.add_node at he ⊢
    by_cases h1 : name = "" ∨ name.data.all Char.isWhitespace
    · rw [if_pos h1]
    · rw [if_neg h1] at he ⊢
      by_cases h2 : (assocFind g.nodes name).isSome
      · rw [if_pos h2]
      · rw [if_neg h2] at he
        simp at he
  · intro name e he
    by_cases h1 : (assocFind g.nodes name).isNone
    · simp [Graph.delete_node, h1]
    · simp [Graph.delete_node, h1] at he
  · intro u v e he
    by_cases h1 : (assocFind g.edges (normPair u v)).isNone
    · simp [Graph.delete_edge, h1]
    · simp [Graph.delete_edge, h1] at he
  · intro u v d t a e he
    by_cases h1 : u = v
    · simp [Graph.add_edge, h1]
    · by_cases h2 : assocFind g.nodes u = none ∨ assocFind g.nodes v = none
      · simp [Graph.add_edge, h1, Option.isNone_iff_eq_none, h2]
      · by_cases h3 : (assocFind g.edges (normPair u v)).isSome
        · simp [Graph.add_edge, h1, Option.isNone_iff_eq_none, h2, h3]
        · by_cases h4 : d ≤ 0 ∨ t ≤ 0
          · simp [Graph.add_edge, h1, Option.isNone_iff_eq_none, h2, h3, h4]
          · simp [Graph.add_edge, h1, Option.isNone_iff_eq_none, h2, h3, h4] at he

instance {ε α : Type} [DecidableEq ε] [DecidableEq α] :
    DecidableEq (Except ε α) := fun a b =>
  match a, b with
  | .error e, .error f =>
    decidable_of_iff (e = f) ⟨fun h => by rw [h], fun h => by injection h⟩
  | .error _, .ok _ => isFalse (fun h => Except.noConfusion h)
  | .ok _, .error _ => isFalse (fun h => Except.noConfusion h)
  | .ok x, .ok y =>
    decidable_of_iff (x = y) ⟨fun h => by rw [h], fun h => by injection h⟩

/-- Two-node fixture: buildings `A` and `B`, no edges. -/
def pairGraph : Graph :=
  ((Graph.empty.add_node "A" 0 0).1.add_node "B" 100 0).1

/-- The concrete scenario fixture of the spec: nodes `A`, `B`, `C`, `D` and
edges `A-B` (100, 1, accessible), `B-C` (100, 1, accessible), `A-C`
(500, 5, accessible), `C-D` (50, 1, non-accessible), added in that order. -/
def demoGraph : Graph :=
  let g := Graph.empty
  let g := (g.add_node "A" 60 60).1
  let g := (g.add_node "B" 220 90).1
  let g := (g.add_node "C" 180 220).1
  let g := (g.add_node "D" 340 260).1
  let g := (g.add_edge "A" "B" 100 1 true).1
  let g := (g.add_edge "B" "C" 100 1 true).1
  let g := (g.add_edge "A" "C" 500 5 true).1
  let g := (g.add_edge "C" "D" 50 1 false).1
  g

/-- C9: on the spec's concrete fixture, BFS from `A` to `D` without the
accessibility filter visits `A, B, C, D` in that order, returns the path
`A, C, D`, and that path's totals are distance 550 and time 6.  The first
six conjuncts certify that the fixture really holds the claimed nodes and
edges (so every `add_node`/`add_edge` call succeeded). -/
theorem bfs_demo_scenario :
    demoGraph.nodes.map Prod.fst = ["A", "B", "C", "D"] ∧
    demoGraph.edges.map Prod.fst = [("A", "B"), ("B", "C"), ("A", "C"), ("C", "D")] ∧
    demoGraph.get_edge "A" "B" =
      some { u := "A", v := "B", distance := 100, time := 1,
             accessible := true, closed := false } ∧
    demoGraph.get_edge "B" "C" =
      some { u := "B", v := "C", distance := 100, time := 1,
             accessible := true, closed := false } ∧
    demoGraph.get_edge "A" "C" =
      some { u := "A", v := "C", distance := 500, time := 5,
             accessible := true, closed := false } ∧
    demoGraph.get_edge "C" "D" =
      some { u := "C", v := "D", distance := 50, time := 1,
             accessible := false, closed := false } ∧
    bfs demoGraph "A" "D" false = (["A", "B", "C", "D"], ["A", "C", "D"]) ∧
    pathTotals demoGraph ["A", "C", "D"] = (550, 6) := by
  have hAC : demoGraph.get_edge "A" "C" =
      some { u := "A", v := "C", distance := 500, time := 5,
             accessible := true, closed := false } := by decide
  have hCD : demoGraph.get_edge "C" "D" =
      some { u := "C", v := "D", distance := 50, time := 1,
             accessible := false, closed := false } := by decide
  refine ⟨by decide, by decide, by decide, by decide, hAC, hCD, by decide, ?_⟩
  simp only [pathTotals, hAC, hCD]
  norm_num

/-- C7 counterexample: on the two-node fixture, `add_edge("A","B",...)` and
`add_edge("B","A",...)` both succeed, but the resulting model states are
not identical: the stored `Edge` keeps the call's argument order in its
`u`/`v` fields, and `get_edge` exposes that difference. -/
theorem add_edge_orientation_cex :
    (pairGraph.add_edge "A" "B" 2 3 true).2 = Except.ok () ∧
    (pairGraph.add_edge "B" "A" 2 3 true).2 = Except.ok () ∧
    (pairGraph.add_edge "A" "B" 2 3 true).1 ≠ (pairGraph.add_edge "B" "A" 2 3 true).1 ∧
    ((pairGraph.add_edge "A" "B" 2 3 true).1.get_edge "A" "B" ≠
      (pairGraph.add_edge "B" "A" 2 3 true).1.get_edge "A" "B") := by
  refine ⟨rfl, rfl, by decide, by decide⟩

/-- C7 (amended): `add_edge(u,v,...)` and `add_edge(v,u,...)` return the
same outcome; on success both insert under the same normalized key with the
same distance/time/accessible/closed data and differ only in the stored
orientation of the `u`/`v` fields; after either succeeds a further
`add_edge` in either argument order fails as a duplicate; and `get_edge`
is argument-order-insensitive (and, being total, never raises). -/
theorem add_edge_norm_sym (g : Graph) (u v : String) (d t : ℚ) (a : Bool) :
    ((g.add_edge u v d t a).2 = (g.add_edge v u d t a).2) ∧
    (u ≠ v → assocFind g.nodes u ≠ none → assocFind g.nodes v ≠ none →
      assocFind g.edges (normPair u v) = none → 0 < d → 0 < t →
      (g.add_edge u v d t a).1.nodes = (g.add_edge v u d t a).1.nodes ∧
      (g.add_edge u v d t a).1.edges = g.edges ++
        [(normPair u v,
          { u := u, v := v, distance := d, time := t,
            accessible := a, closed := false })] ∧
      (g.add_edge v u d t a).1.edges = g.edges ++
        [(normPair u v,
          { u := v, v := u, distance := d, time := t,
            accessible := a, closed := false })] ∧
      (∀ d' t' : ℚ, ∀ a' : Bool,
        ((g.add_edge u v d t a).1.add_edge u v d' t' a').2 =
          .error .duplicateEdge ∧
        ((g.add_edge u v d t a).1.add_edge v u d' t' a').2 =
          .error .duplicateEdge)) ∧
    (∀ x y : String, g.get_edge x y = g.get_edge y x) := by
  refine ⟨?_, ?_, ?_⟩
  · by_cases h1 : u = v
    · rw [add_edge_selfLoop_eq g u v d t a h1,
          add_edge_selfLoop_eq g v u d t a h1.symm]
    · have h1' : v ≠ u := fun hh => h1 hh.symm
      by_cases h2 : assocFind g.nodes u = none ∨ assocFind g.nodes v = none
      · rw [add_edge_missing_eq g u v d t a h1 h2,
            add_edge_missing_eq g v u d t a h1' (Or.symm h2)]
      · push_neg at h2
        obtain ⟨hu, hv⟩ := h2
        have h3' : assocFind g.edges (normPair v u) = assocFind g.edges (normPair u v) := by
          rw [normPair_comm v u]
        by_cases h3 : assocFind g.edges (normPair u v) = none
        · by_cases h4 : d ≤ 0 ∨ t ≤ 0
          · rw [add_edge_invalid_eq g u v d t a h1 hu hv h3 h4,
                add_edge_invalid_eq g v u d t a h1' hv hu (h3'.trans h3) h4]
          · push_neg at h4
            rw [add_edge_success_eq g u v d t a h1 hu hv h3 h4.1 h4.2,
                add_edge_success_eq g v u d t a h1' hv hu (h3'.trans h3) h4.1 h4.2]
        · rw [add_edge_dup_eq g u v d t a h1 hu hv h3,
              add_edge_dup_eq g v u d t a h1' hv hu (fun hc => h3 (h3' ▸ hc))]
  · intro h1 hu hv hfree hd ht
    have e1 := add_edge_success_eq g u v d t a h1 hu hv hfree hd ht
    have e2 := add_edge_success_eq g v u d t a (fun hh => h1 hh.symm) hv hu
      (by rw [normPair_comm v u]; exact hfree) hd ht
    rw [normPair_comm v u] at e2
    refine ⟨by rw [e1, e2], by rw [e1], by rw [e2], ?_⟩
    intro d' t' a'
    have hnodes : (g.add_edge u v d t a).1.nodes = g.nodes := by rw [e1]
    have hdup : assocFind (g.add_edge u v d t a).1.edges (normPair u v) ≠ none := by
      rw [e1]
      show assocFind (g.edges ++ [(normPair u v, _)]) (normPair u v) ≠ none
      rw [assocFind_append, hfree, assocFind_cons_self]
      simp
    constructor
    · rw [add_edge_dup_eq _ u v d' t' a' h1 (by rw [hnodes]; exact hu)
        (by rw [hnodes]; exact hv) hdup]
    · rw [add_edge_dup_eq _ v u d' t' a' (fun hh => h1 hh.symm)
        (by rw [hnodes]; exact hv) (by rw [hnodes]; exact hu)
        (by rw [normPair_comm v u]; exact hdup)]
  · intro x y
    unfold Graph.get_edge
    rw [normPair_comm x y]

/-- C7 amended-claim witness at a concrete input. -/
theorem add_edge_norm_sym_witness :
    ("A" : String) ≠ "B" ∧
    (pairGraph.add_edge "A" "B" 2 3 true).2 = (pairGraph.add_edge "B" "A" 2 3 true).2 ∧
    ((pairGraph.add_edge "A" "B" 2 3 true).1.add_edge "B" "A" 9 9 false).2 =
      Except.error Err.duplicateEdge ∧
    pairGraph.get_edge "A" "B" = pairGraph.get_edge "B" "A" := by
  have h := add_edge_norm_sym pairGraph "A" "B" 2 3 true
  have hs := h.2.1 (by decide) (by decide) (by decide) (by decide)
    (by norm_num) (by norm_num)
  exact ⟨by decide, h.1, (hs.2.2.2 9 9 false).2, h.2.2 "A" "B"⟩

/-- C4 witness: on the two-node fixture the successful-insertion branch of
the contract applies with concrete data. -/
theorem add_edge_contract_witness :
    ("A" : String) ≠ "B" ∧
    (pairGraph.add_edge "A" "B" 5 3 true).2 = Except.ok () ∧
    (pairGraph.add_edge "A" "B" 5 3 true).1.get_edge "A" "B" =
      some { u := "A", v := "B", distance := 5, time := 3,
             accessible := true, closed := false } := by
  have h := (add_edge_contract pairGraph "A" "B" 5 3 true).2.2.2.2
    (by decide) (by decide) (by decide) (by decide) (by norm_num) (by norm_num)
  exact ⟨by decide, h.1, h.2.2.2.1⟩

/-- C5 witness: deleting `C` from the demo fixture succeeds, removes the
node, and removes exactly the three incident edges. -/
theorem delete_node_contract_witness :
    assocFind demoGraph.nodes "C" ≠ none ∧
    ∃ g' k, demoGraph.delete_node "C" = (g', .ok k) ∧
      assocFind g'.nodes "C" = none ∧
      k + g'.edges.length = demoGraph.edges.length := by
  obtain ⟨g', k, h1, h2, h3, h4, h5, h6⟩ :=
    (delete_node_contract demoGraph "C" (by decide)).2 (by decide)
  exact ⟨by decide, g', k, h1, h2, h6⟩

/-- C6 witness: a failing `add_node` (duplicate name) and a failing
`add_edge` (self-loop) both leave the fixture unchanged. -/
theorem mutators_atomic_witness :
    (pairGraph.add_node "A" 7 7).2 = Except.error Err.duplicateNode ∧
    (pairGraph.add_node "A" 7 7).1 = pairGraph ∧
    (pairGraph.add_edge "A" "A" 1 1 true).2 = Except.error Err.selfLoop ∧
    (pairGraph.add_edge "A" "A" 1 1 true).1 = pairGraph := by
  have h1 := (mutators_atomic pairGraph).1 "A" 7 7 Err.duplicateNode (by decide)
  have h2 := (mutators_atomic pairGraph).2.2.2 "A" "A" 1 1 true Err.selfLoop (by decide)
  exact ⟨by decide, h1, by decide, h2⟩

/-! ### Well-formed graphs and the neighbor/edge-filter correspondence -/

/-- Well-formedness maintained by the mutating operations: edge keys are
distinct and each key is a strictly sorted pair (as `add_edge` creates it
from two distinct names). -/
def WF (g : Graph) : Prop :=
  (g.edges.map Prod.fst).Nodup ∧ ∀ p ∈ g.edges, p.1.1.data < p.1.2.data

theorem normPair_eq_of_lt {a b : String} (h : a.data < b.data) :
    normPair a b = (a, b) := by
  unfold normPair
  rw [if_neg (asymm h)]

theorem normPair_swap_eq_of_lt {a b : String} (h : a.data < b.data) :
    normPair b a = (a, b) := by
  unfold normPair
  rw [if_pos h]

theorem string_ne_of_data_lt {a b : String} (h : a.data < b.data) : a ≠ b := by
  intro hab
  subst hab
  exact lt_irrefl _ h

theorem mem_touches_left {g : Graph} {k : String × String} {e : Edge}
    (h : (k, e) ∈ g.edges) : k.1 ∈ g.touches := by
  unfold Graph.touches
  rw [List.mem_dedup, List.mem_append]
  exact Or.inl (List.mem_map.2 ⟨(k, e), h, rfl⟩)

theorem mem_touches_right {g : Graph} {k : String × String} {e : Edge}
    (h : (k, e) ∈ g.edges) : k.2 ∈ g.touches := by
  unfold Graph.touches
  rw [List.mem_dedup, List.mem_append]
  exact Or.inr (List.mem_map.2 ⟨(k, e), h, rfl⟩)

theorem normPair_cases (a b : String) :
    normPair a b = (a, b) ∨ normPair a b = (b, a) := by
  unfold normPair
  by_cases h : b.data < a.data
  · rw [if_pos h]
    exact Or.inr rfl
  · rw [if_neg h]
    exact Or.inl rfl

theorem get_edge_touches {g : Graph} {u w : String} {e : Edge}
    (h : g.get_edge u w = some e) : u ∈ g.touches ∧ w ∈ g.touches := by
  have hmem := assocFind_mem h
  rcases normPair_cases u w with hn | hn <;> rw [hn] at hmem
  · exact ⟨mem_touches_left hmem, mem_touches_right hmem⟩
  · exact ⟨mem_touches_right hmem, mem_touches_left hmem⟩

theorem touches_nodup (g : Graph) : g.touches.Nodup := List.nodup_dedup _

theorem eq_false_of_not_true {b : Bool} (h : ¬ b = true) : b = false := by
  cases b
  · rfl
  · exact absurd rfl h

/-- The Boolean edge filter of the traversals, on a present edge. -/
theorem traversable_some {g : Graph} {acc : Bool} {u w : String} {e : Edge}
    (hge : g.get_edge u w = some e) :
    traversable g acc u w = true ↔
      e.closed = false ∧ (acc && !e.accessible) = false := by
  unfold traversable
  rw [hge]
  obtain ⟨eu, ev, ed, et, ea, ec⟩ := e
  cases ec <;> cases acc <;> cases ea <;> simp

theorem traversable_none {g : Graph} {acc : Bool} {u w : String}
    (hge : g.get_edge u w = none) : traversable g acc u w = false := by
  unfold traversable
  rw [hge]

/-- Under well-formedness, membership in the `neighbors` enumeration is
exactly the traversable-edge filter both search loops re-check. -/
theorem mem_neighbors_iff_traversable {g : Graph} (hWF : WF g)
    (acc : Bool) (u w : String) :
    w ∈ g.neighbors u acc ↔ traversable g acc u w = true := by
  constructor
  · intro hmem
    obtain ⟨p, hp, hfp⟩ := List.mem_filterMap.1 hmem
    obtain ⟨⟨ka, kb⟩, e⟩ := p
    have hsorted : ka.data < kb.data := hWF.2 _ hp
    by_cases hc : e.closed = true
    · rw [if_pos hc] at hfp
      exact absurd hfp (by simp)
    · rw [if_neg hc] at hfp
      by_cases hacc : (acc && !e.accessible) = true
      · rw [if_pos hacc] at hfp
        exact absurd hfp (by simp)
      · rw [if_neg hacc] at hfp
        by_cases hka : ka = u
        · rw [if_pos hka] at hfp
          obtain rfl := Option.some.inj hfp
          subst hka
          have hge : g.get_edge ka kb = some e := by
            unfold Graph.get_edge
            rw [normPair_eq_of_lt hsorted]
            exact assocFind_eq_of_mem hWF.1 hp
          exact (traversable_some hge).2
            ⟨eq_false_of_not_true hc, eq_false_of_not_true hacc⟩
        · rw [if_neg hka] at hfp
          by_cases hkb : kb = u
          · rw [if_pos hkb] at hfp
            obtain rfl := Option.some.inj hfp
            subst hkb
            have hge : g.get_edge kb ka = some e := by
              unfold Graph.get_edge
              rw [normPair_swap_eq_of_lt hsorted]
              exact assocFind_eq_of_mem hWF.1 hp
            exact (traversable_some hge).2
              ⟨eq_false_of_not_true hc, eq_false_of_not_true hacc⟩
          · rw [if_neg hkb] at hfp
            exact absurd hfp (by simp)
  · intro htr
    cases hge : g.get_edge u w with
    | none => exact absurd htr (by rw [traversable_none hge]; simp)
    | some e =>
      obtain ⟨hc, hacc⟩ := (traversable_some hge).1 htr
      have hmem := assocFind_mem hge
      unfold Graph.neighbors
      rcases normPair_cases u w with hn | hn <;> rw [hn] at hmem
      · refine List.mem_filterMap.2 ⟨((u, w), e), hmem, ?_⟩
        rw [if_neg (by rw [hc]; simp), if_neg (by rw [hacc]; simp), if_pos rfl]
      · have hsorted : w.data < u.data := hWF.2 _ hmem
        have hwu : w ≠ u := string_ne_of_data_lt hsorted
        refine List.mem_filterMap.2 ⟨((w, u), e), hmem, ?_⟩
        rw [if_neg (by rw [hc]; simp), if_neg (by rw [hacc]; simp),
            if_neg hwu, if_pos rfl]

theorem neighbors_touches {g : Graph} {acc : Bool} {u w : String}
    (h : w ∈ g.neighbors u acc) : w ∈ g.touches ∧ u ∈ g.touches := by
  obtain ⟨p, hp, hfp⟩ := List.mem_filterMap.1 h
  obtain ⟨⟨ka, kb⟩, e⟩ := p
  by_cases hc : e.closed = true
  · rw [if_pos hc] at hfp
    exact absurd hfp (by simp)
  · rw [if_neg hc] at hfp
    by_cases hacc : (acc && !e.accessible) = true
    · rw [if_pos hacc] at hfp
      exact absurd hfp (by simp)
    · rw [if_neg hacc] at hfp
      by_cases hka : ka = u
      · rw [if_pos hka] at hfp
        obtain rfl := Option.some.inj hfp
        subst hka
        exact ⟨mem_touches_right hp, mem_touches_left hp⟩
      · rw [if_neg hka] at hfp
        by_cases hkb : kb = u
        · rw [if_pos hkb] at hfp
          obtain rfl := Option.some.inj hfp
          subst hkb
          exact ⟨mem_touches_left hp, mem_touches_right hp⟩
        · rw [if_neg hkb] at hfp
          exact absurd hfp (by simp)

/-! ### Paths over traversable edges -/

/-- A concrete path witness: non-empty, starts at `s`, ends at `t`, and
every consecutive pair passes the traversal edge filter. -/
def IsPath (g : Graph) (acc : Bool) (s t : String) (l : List String) : Prop :=
  l ≠ [] ∧ l.head? = some s ∧ l.getLast? = some t ∧
  List.Chain' (fun a b => traversable g acc a b = true) l

/-- `t` can be reached from `s` through traversable edges. -/
def Reachable (g : Graph) (acc : Bool) (s t : String) : Prop :=
  ∃ l, IsPath g acc s t l

theorem isPath_singleton (g : Graph) (acc : Bool) (s : String) :
    IsPath g acc s s [s] := ⟨by simp, rfl, rfl, List.chain'_singleton s⟩

theorem isPath_singleton_iff {g : Graph} {acc : Bool} {s t x : String} :
    IsPath g acc s t [x] ↔ x = s ∧ x = t := by
  constructor
  · rintro ⟨-, hhd, hlast, -⟩
    exact ⟨Option.some.inj hhd, Option.some.inj hlast⟩
  · rintro ⟨rfl, rfl⟩
    exact isPath_singleton g acc x

theorem isPath_snoc {g : Graph} {acc : Bool} {s a b : String} {l : List String}
    (h : IsPath g acc s a l) (htr : traversable g acc a b = true) :
    IsPath g acc s b (l ++ [b]) := by
  obtain ⟨hne, hhd, hlast, hch⟩ := h
  refine ⟨by simp, ?_, ?_, ?_⟩
  · rwa [List.head?_append_of_ne_nil _ hne]
  · rw [List.getLast?_concat]
  · rw [List.chain'_append]
    refine ⟨hch, List.chain'_singleton b, ?_⟩
    intro x hx y hy
    rw [hlast] at hx
    simp only [Option.mem_def, Option.some.injEq] at hx
    subst hx
    simp only [List.head?_cons, Option.mem_def, Option.some.injEq] at hy
    subst hy
    exact htr

theorem reachable_self (g : Graph) (acc : Bool) (s : String) :
    Reachable g acc s s := ⟨[s], isPath_singleton g acc s⟩

/-- A set of names containing `s` and closed under traversable steps
contains every name reachable from `s`. -/
theorem reachable_mem_of_closed {g : Graph} {acc : Bool} {s : String}
    {V : List String}
    (hclosed : ∀ x ∈ V, ∀ w, traversable g acc x w = true → w ∈ V)
    (hs : s ∈ V) : ∀ t, Reachable g acc s t → t ∈ V := by
  have key : ∀ (l : List String) (a t : String), a ∈ V →
      l.head? = some a → l.getLast? = some t →
      List.Chain' (fun x y => traversable g acc x y = true) l → t ∈ V := by
    intro l
    induction l with
    | nil =>
      intro a t _ hhd _ _
      simp at hhd
    | cons x rest ih =>
      intro a t ha hhd hlast hch
      have hxa : x = a := Option.some.inj hhd
      subst hxa
      cases rest with
      | nil =>
        have hxt : x = t := Option.some.inj hlast
        subst hxt
        exact ha
      | cons y rest' =>
        have hchc := List.chain'_cons.1 hch
        have hy : y ∈ V := hclosed x ha y hchc.1
        refine ih y t hy rfl ?_ hchc.2
        rwa [List.getLast?_cons_cons] at hlast
  rintro t ⟨l, hne, hhd, hlast, hch⟩
  obtain ⟨x, rest, rfl⟩ := List.exists_cons_of_ne_nil hne
  have hxs : x = s := Option.some.inj hhd
  subst hxs
  exact key (x :: rest) x t hs rfl hlast hch

/-! ### Claim C2: neighbor enumeration order -/

/-- Three-node fixture with edges inserted in ascending-name order:
`A-B` first, then `A-C`. -/
def triGraphAB : Graph :=
  let g := Graph.empty
  let g := (g.add_node "A" 0 0).1
  let g := (g.add_node "B" 100 0).1
  let g := (g.add_node "C" 200 0).1
  let g := (g.add_edge "A" "B" 1 1 true).1
  let g := (g.add_edge "A" "C" 1 1 true).1
  g

/-- The same three nodes and the same two edges, inserted in the opposite
order: `A-C` first, then `A-B`. -/
def triGraphCA : Graph :=
  let g := Graph.empty
  let g := (g.add_node "A" 0 0).1
  let g := (g.add_node "B" 100 0).1
  let g := (g.add_node "C" 200 0).1
  let g := (g.add_edge "A" "C" 1 1 true).1
  let g := (g.add_edge "A" "B" 1 1 true).1
  g

/-- C2 counterexample: two models with identical node maps and identical
edge maps as sets (a permutation of each other) — differing only in the
insertion order of the edges — enumerate `A`'s neighbors in different
orders (`[B, C]` vs `[C, B]`, the latter not ascending), and BFS between
the same existing endpoints returns different `visited_order`s.  So the
traversals do not enumerate neighbors in ascending-name order, and their
results are not independent of edge insertion order. -/
theorem neighbors_order_cex :
    triGraphAB.nodes = triGraphCA.nodes ∧
    triGraphAB.edges.Perm triGraphCA.edges ∧
    triGraphAB.neighbors "A" false = ["B", "C"] ∧
    triGraphCA.neighbors "A" false = ["C", "B"] ∧
    (bfs triGraphAB "A" "C" false).1 = ["A", "B", "C"] ∧
    (bfs triGraphCA "A" "C" false).1 = ["A", "C"] ∧
    (bfs triGraphAB "A" "C" false).1 ≠ (bfs triGraphCA "A" "C" false).1 := by
  decide

/-- C2 (amended): neighbor enumeration follows the insertion order of the
edge map (concretely witnessed by the `triGraphCA` fixture, where it is
not ascending), and on any well-formed state it enumerates exactly the
traversable neighbors: membership in `neighbors` coincides with the edge
filter the traversals re-check. -/
theorem neighbors_enumeration (g : Graph) (hWF : WF g) (acc : Bool)
    (u w : String) :
    (w ∈ g.neighbors u acc ↔ traversable g acc u w = true) ∧
    triGraphCA.neighbors "A" false = ["C", "B"] :=
  ⟨mem_neighbors_iff_traversable hWF acc u w, by decide⟩

/-- C2 amended-claim witness at a concrete input. -/
theorem neighbors_enumeration_witness :
    WF demoGraph ∧
    (("B" : String) ∈ demoGraph.neighbors "A" false ↔
      traversable demoGraph false "A" "B" = true) := by
  have h := neighbors_enumeration demoGraph (by constructor <;> decide) false "A" "B"
  exact ⟨by constructor <;> decide, h.1⟩

/-! ### Parent chains and path reconstruction -/

/-- `PChain p v l`: following the parent map `p` backward from `v` reaches
a root (a `None` parent) and spells the node list `l`, root first, `v`
last.  This is what `App._reconstruct_path` walks. -/
inductive PChain (p : PMap) : String → List String → Prop
  | root (v : String) : assocFind p v = some none → PChain p v [v]
  | step (v u : String) (l : List String) :
      assocFind p v = some (some u) → PChain p u l → PChain p v (l ++ [v])

theorem pchain_ne_nil {p : PMap} {v : String} {l : List String}
    (h : PChain p v l) : l ≠ [] := by
  cases h with
  | root _ _ => simp
  | step _ _ _ _ _ => simp

theorem pchain_last {p : PMap} {v : String} {l : List String}
    (h : PChain p v l) : l.getLast? = some v := by
  cases h with
  | root _ _ => rfl
  | step _ _ _ _ _ => rw [List.getLast?_concat]

theorem pchain_mem_isSome {p : PMap} {v : String} {l : List String}
    (h : PChain p v l) : ∀ x ∈ l, (assocFind p x).isSome := by
  induction h with
  | root w hw =>
    intro x hx
    obtain rfl : x = w := by simpa using hx
    rw [hw]
    rfl
  | step w u l hw hc ih =>
    intro x hx
    rcases List.mem_append.1 hx with hx | hx
    · exact ih x hx
    · obtain rfl : x = w := by simpa using hx
      rw [hw]
      rfl

theorem pchain_mem_self {p : PMap} {v : String} {l : List String}
    (h : PChain p v l) : v ∈ l := by
  cases h with
  | root _ _ => simp
  | step _ _ _ _ _ => simp

theorem pchain_unique {p : PMap} {v : String} {l₁ l₂ : List String}
    (h₁ : PChain p v l₁) (h₂ : PChain p v l₂) : l₁ = l₂ := by
  induction h₁ generalizing l₂ with
  | root w hw =>
    cases h₂ with
    | root _ _ => rfl
    | step _ u _ hw' _ =>
      rw [hw] at hw'
      exact absurd (Option.some.inj hw') (by simp)
  | step w u l hw hc ih =>
    cases h₂ with
    | root _ hw' =>
      rw [hw] at hw'
      exact absurd (Option.some.inj hw') (by simp)
    | step _ u' l' hw' hc' =>
      rw [hw] at hw'
      obtain rfl : u = u' := by
        have := Option.some.inj hw'
        simpa using this
      rw [ih hc']

theorem pchain_mem_sub {p : PMap} {v : String} {l : List String}
    (h : PChain p v l) :
    ∀ x ∈ l, ∃ lx, PChain p x lx ∧ lx.length ≤ l.length := by
  induction h with
  | root w hw =>
    intro x hx
    obtain rfl : x = w := by simpa using hx
    exact ⟨[x], PChain.root x hw, le_refl _⟩
  | step w u l hw hc ih =>
    intro x hx
    rcases List.mem_append.1 hx with hx | hx
    · obtain ⟨lx, h1, h2⟩ := ih x hx
      exact ⟨lx, h1, h2.trans (by simp)⟩
    · obtain rfl : x = w := by simpa using hx
      exact ⟨l ++ [x], PChain.step x u l hw hc, le_refl _⟩

theorem pchain_nodup {p : PMap} {v : String} {l : List String}
    (h : PChain p v l) : l.Nodup := by
  induction h with
  | root w _ => simp
  | step w u l hw hc ih =>
    rw [List.nodup_append]
    refine ⟨ih, by simp, ?_⟩
    intro x hx hx'
    obtain rfl : x = w := by simpa using hx'
    obtain ⟨lx, h1, h2⟩ := pchain_mem_sub hc x hx
    have : lx = l ++ [x] := pchain_unique h1 (PChain.step x u l hw hc)
    rw [this] at h2
    simp at h2

/-- Extending the parent map off the chain's keys preserves the chain. -/
theorem pchain_preserve {p p' : PMap} {v : String} {l : List String}
    (hagree : ∀ x, (assocFind p x).isSome → assocFind p' x = assocFind p x)
    (h : PChain p v l) : PChain p' v l := by
  induction h with
  | root w hw =>
    exact PChain.root w (by rw [hagree w (by rw [hw]; rfl), hw])
  | step w u l hw hc ih =>
    exact PChain.step w u l (by rw [hagree w (by rw [hw]; rfl), hw]) ih

theorem pchain_backSteps {p : PMap} {v : String} {l : List String}
    (h : PChain p v l) : ∀ n, l.length ≤ n → backSteps p n v = some l.reverse := by
  induction h with
  | root w hw =>
    intro n hn
    cases n with
    | zero => simp at hn
    | succ m =>
      unfold backSteps
      rw [hw]
      rfl
  | step w u l hw hc ih =>
    intro n hn
    cases n with
    | zero => simp at hn
    | succ m =>
      unfold backSteps
      rw [hw]
      show Option.map (fun l => w :: l) (backSteps p m u) = some (l ++ [w]).reverse
      rw [ih m (by simpa using hn)]
      simp

theorem pchain_length_le {p : PMap} {v : String} {l : List String}
    (hnd : (p.map Prod.fst).Nodup) (h : PChain p v l) : l.length ≤ p.length := by
  have hsub : l.toFinset ⊆ (p.map Prod.fst).toFinset := by
    intro x hx
    rw [List.mem_toFinset] at hx ⊢
    exact (assocFind_isSome_iff p x).1 (pchain_mem_isSome h x hx)
  calc l.length = l.toFinset.card := (List.toFinset_card_of_nodup (pchain_nodup h)).symm
    _ ≤ (p.map Prod.fst).toFinset.card := Finset.card_le_card hsub
    _ ≤ (p.map Prod.fst).length := (p.map Prod.fst).toFinset_card_le
    _ = p.length := by rw [List.length_map]

/-- `App._reconstruct_path` returns exactly the parent chain of `goal`
whenever that chain exists and starts at `start`. -/
theorem pchain_reconstruct {p : PMap} {start goal : String} {l : List String}
    (hnd : (p.map Prod.fst).Nodup) (h : PChain p goal l)
    (hhd : l.head? = some start) : reconstructPath p start goal = l := by
  obtain ⟨val, hval⟩ := Option.isSome_iff_exists.1
    (pchain_mem_isSome h goal (pchain_mem_self h))
  have hbs : backSteps p (p.length + 1) goal = some l.reverse :=
    pchain_backSteps h (p.length + 1)
      ((pchain_length_le hnd h).trans (Nat.le_succ _))
  unfold reconstructPath
  rw [hval, hbs]
  simp only [List.reverse_reverse]
  rw [if_pos hhd]

/-- `App._reconstruct_path` returns `[]` when `goal` has no parent entry. -/
theorem reconstruct_no_entry {p : PMap} {start goal : String}
    (h : assocFind p goal = none) : reconstructPath p start goal = [] := by
  unfold reconstructPath
  rw [h]

/-! ### BFS: counting, the scan lemma, and the loop invariant -/

/-- Number of edge-touching names not yet visited; the BFS fuel measure. -/
def newCount (g : Graph) (vis : List String) : Nat :=
  (g.touches.filter (fun x => decide (¬ x ∈ vis))).length

theorem newCount_congr {g : Graph} {v v' : List String}
    (h : ∀ x, x ∈ v ↔ x ∈ v') : newCount g v = newCount g v' := by
  unfold newCount
  congr 1
  apply List.filter_congr
  intro x hx
  simp [h x]

theorem newCount_cons_aux {w : String} {v : List String} :
    ∀ (T : List String), T.Nodup → w ∈ T → w ∉ v →
      (T.filter (fun x => decide (¬ x ∈ w :: v))).length + 1 =
      (T.filter (fun x => decide (¬ x ∈ v))).length := by
  intro T
  induction T with
  | nil => simp
  | cons a t ih =>
    intro hnd hm hnv
    rw [List.nodup_cons] at hnd
    rcases List.mem_cons.1 hm with rfl | hm'
    · rw [List.filter_cons_of_neg (by simp), List.filter_cons_of_pos (by simpa using hnv)]
      have heq : t.filter (fun x => decide (¬ x ∈ w :: v)) =
          t.filter (fun x => decide (¬ x ∈ v)) := by
        apply List.filter_congr
        intro x hx
        have hxw : x ≠ w := fun hh => hnd.1 (hh ▸ hx)
        simp [hxw]
      rw [heq, List.length_cons]
    · have haw : a ≠ w := fun hh => hnd.1 (hh ▸ hm')
      by_cases hav : a ∈ v
      · rw [List.filter_cons_of_neg (by simp [hav]),
            List.filter_cons_of_neg (by simp [hav])]
        exact ih hnd.2 hm' hnv
      · rw [List.filter_cons_of_pos (by simp [haw, hav]),
            List.filter_cons_of_pos (by simpa using hav)]
        have := ih hnd.2 hm' hnv
        rw [List.length_cons, List.length_cons]
        omega

theorem newCount_cons {g : Graph} {v : List String} {w : String}
    (hw : w ∈ g.touches) (hnv : w ∉ v) :
    newCount g (w :: v) + 1 = newCount g v :=
  newCount_cons_aux g.touches (touches_nodup g) hw hnv

theorem newCount_union {g : Graph} :
    ∀ (news : List String) (v v' : List String),
      (∀ x, x ∈ v' ↔ x ∈ news ∨ x ∈ v) →
      news.Nodup → (∀ w ∈ news, w ∈ g.touches ∧ w ∉ v) →
      newCount g v' + news.length = newCount g v := by
  intro news
  induction news with
  | nil =>
    intro v v' hv' _ _
    have hcg : newCount g v' = newCount g v := newCount_congr (by simp [hv'])
    rw [hcg]
    simp
  | cons w rest ih =>
    intro v v' hv' hnd hsub
    rw [List.nodup_cons] at hnd
    have h1 : newCount g v' + rest.length = newCount g (w :: v) := by
      apply ih (w :: v) v'
      · intro x
        rw [hv']
        by_cases hxw : x = w <;> simp [hxw]
      · exact hnd.2
      · intro x hx
        refine ⟨(hsub x (List.mem_cons_of_mem _ hx)).1, ?_⟩
        intro hmem
        rcases List.mem_cons.1 hmem with rfl | hmem'
        · exact hnd.1 hx
        · exact (hsub x (List.mem_cons_of_mem _ hx)).2 hmem'
    have h2 : newCount g (w :: v) + 1 = newCount g v :=
      newCount_cons (hsub w (List.mem_cons_self _ _)).1
        (hsub w (List.mem_cons_self _ _)).2
    rw [List.length_cons]
    omega

/-! Parent-map folds created by the scan. -/

theorem foldl_assocSet_find_notmem {u : String} {news : List String} :
    ∀ (par : PMap) (x : String), x ∉ news →
      assocFind (news.foldl (fun pp w => assocSet pp w (some u)) par) x =
        assocFind par x := by
  induction news with
  | nil => intro par x _; rfl
  | cons a t ih =>
    intro par x hx
    rw [List.foldl_cons]
    rw [ih _ x (fun hh => hx (List.mem_cons_of_mem _ hh))]
    exact assocFind_assocSet_ne _ _ _ _ (fun hh => hx (hh ▸ List.mem_cons_self _ _))

theorem foldl_assocSet_find_mem {u : String} {news : List String} :
    ∀ (par : PMap) (w : String), w ∈ news → news.Nodup →
      assocFind (news.foldl (fun pp w => assocSet pp w (some u)) par) w =
        some (some u) := by
  induction news with
  | nil => intro par w h _; simp at h
  | cons a t ih =>
    intro par w hw hnd
    rw [List.nodup_cons] at hnd
    rw [List.foldl_cons]
    rcases List.mem_cons.1 hw with rfl | hw'
    · rw [foldl_assocSet_find_notmem _ w hnd.1]
      exact assocFind_assocSet_self _ _ _
    · exact ih _ w hw' hnd.2

theorem foldl_assocSet_isSome {u : String} {news : List String} :
    ∀ (par : PMap) (x : String),
      (assocFind (news.foldl (fun pp w => assocSet pp w (some u)) par) x).isSome ↔
        x ∈ news ∨ (assocFind par x).isSome := by
  induction news with
  | nil => intro par x; simp
  | cons a t ih =>
    intro par x
    rw [List.foldl_cons, ih]
    by_cases hxa : x = a
    · subst hxa
      rw [assocFind_assocSet_self]
      simp
    · rw [assocFind_assocSet_ne _ _ _ _ hxa]
      simp [hxa]

theorem foldl_assocSet_keys_nodup {u : String} {news : List String} :
    ∀ (par : PMap), (par.map Prod.fst).Nodup →
      (((news.foldl (fun pp w => assocSet pp w (some u)) par)).map Prod.fst).Nodup := by
  induction news with
  | nil => intro par h; exact h
  | cons a t ih =>
    intro par h
    rw [List.foldl_cons]
    exact ih _ (assocSet_keys_nodup _ _ _ h)

/-- Full characterization of one BFS neighbor scan: the newly discovered
nodes `news` are appended to the queue in scan order, pushed onto the
visited list, and bound to parent `u`; they are exactly the traversable,
previously unvisited members of the scanned list. -/
theorem bfsScan_spec (g : Graph) (acc : Bool) (u : String) :
    ∀ (ws vis : List String) (par : PMap) (q : List String),
    ∃ news : List String,
      bfsScan g acc u ws (vis, par, q) =
        (news.reverse ++ vis,
         news.foldl (fun pp w => assocSet pp w (some u)) par,
         q ++ news) ∧
      news.Nodup ∧
      (∀ w ∈ news, w ∉ vis ∧ traversable g acc u w = true ∧ w ∈ ws) ∧
      (∀ w ∈ ws, traversable g acc u w = true → w ∉ vis → w ∈ news) := by
  intro ws
  induction ws with
  | nil =>
    intro vis par q
    refine ⟨[], by simp [bfsScan], by simp, by simp, by simp⟩
  | cons w ws' ih =>
    intro vis par q
    cases hge : g.get_edge u w with
    | none =>
      simp only [bfsScan, hge]
      obtain ⟨news, h1, h2, h3, h4⟩ := ih vis par q
      refine ⟨news, h1, h2, ?_, ?_⟩
      · intro x hx
        obtain ⟨ha, hb, hc⟩ := h3 x hx
        exact ⟨ha, hb, List.mem_cons_of_mem _ hc⟩
      · intro x hx htr hnv
        rcases List.mem_cons.1 hx with rfl | hx'
        · rw [traversable_none hge] at htr
          cases htr
        · exact h4 x hx' htr hnv
    | some e =>
      simp only [bfsScan, hge]
      by_cases hskip : (e.closed || (acc && !e.accessible)) = true
      · rw [if_pos hskip]
        obtain ⟨news, h1, h2, h3, h4⟩ := ih vis par q
        refine ⟨news, h1, h2, ?_, ?_⟩
        · intro x hx
          obtain ⟨ha, hb, hc⟩ := h3 x hx
          exact ⟨ha, hb, List.mem_cons_of_mem _ hc⟩
        · intro x hx htr hnv
          rcases List.mem_cons.1 hx with rfl | hx'
          · obtain ⟨hc1, hc2⟩ := (traversable_some hge).1 htr
            rw [hc1] at hskip
            simp only [Bool.false_or] at hskip
            rw [hc2] at hskip
            cases hskip
          · exact h4 x hx' htr hnv
      · rw [if_neg hskip]
        have hpass : e.closed = false ∧ (acc && !e.accessible) = false :=
          Bool.or_eq_false_iff.1 (eq_false_of_not_true hskip)
        have htrw : traversable g acc u w = true := (traversable_some hge).2 hpass
        by_cases hvis : w ∈ vis
        · rw [if_pos hvis]
          obtain ⟨news, h1, h2, h3, h4⟩ := ih vis par q
          refine ⟨news, h1, h2, ?_, ?_⟩
          · intro x hx
            obtain ⟨ha, hb, hc⟩ := h3 x hx
            exact ⟨ha, hb, List.mem_cons_of_mem _ hc⟩
          · intro x hx htr hnv
            rcases List.mem_cons.1 hx with rfl | hx'
            · exact absurd hvis hnv
            · exact h4 x hx' htr hnv
        · rw [if_neg hvis]
          obtain ⟨news, h1, h2, h3, h4⟩ :=
            ih (w :: vis) (assocSet par w (some u)) (q ++ [w])
          refine ⟨w :: news, ?_, ?_, ?_, ?_⟩
          · rw [h1]
            simp
          · rw [List.nodup_cons]
            refine ⟨?_, h2⟩
            intro hw
            exact (h3 w hw).1 (List.mem_cons_self _ _)
          · intro x hx
            rcases List.mem_cons.1 hx with rfl | hx'
            · exact ⟨hvis, htrw, List.mem_cons_self _ _⟩
            · obtain ⟨ha, hb, hc⟩ := h3 x hx'
              exact ⟨fun hh => ha (List.mem_cons_of_mem _ hh), hb,
                List.mem_cons_of_mem _ hc⟩
          · intro x hx htr hnv
            rcases List.mem_cons.1 hx with rfl | hx'
            · exact List.mem_cons_self _ _
            · by_cases hxw : x = w
              · subst hxw
                exact List.mem_cons_self _ _
              · exact List.mem_cons_of_mem _
                  (h4 x hx' htr (by simp [hxw, hnv]))

theorem mem_of_head?_eq {α : Type} {l : List α} {a : α}
    (h : l.head? = some a) : a ∈ l := by
  cases l with
  | nil => simp at h
  | cons x t =>
    obtain rfl : x = a := Option.some.inj h
    exact List.mem_cons_self _ _

theorem mem_of_getLast?_eq {α : Type} {l : List α} {a : α}
    (h : l.getLast? = some a) : a ∈ l := by
  induction l with
  | nil => simp at h
  | cons x t ih =>
    cases t with
    | nil =>
      obtain rfl : x = a := by simpa using h
      exact List.mem_cons_self _ _
    | cons y t' =>
      rw [List.getLast?_cons_cons] at h
      exact List.mem_cons_of_mem _ (ih h)

/-- The BFS loop invariant over the state `(q, vis, par, order)`, relative
to a depth assignment `dep`:
the visited set splits into dequeued (`order`) and queued (`q`) nodes;
the parent map binds exactly the visited nodes вith distinct keys;
every visited node carries a parent chain that is a traversable path from
`start` of length `dep`; depths are non-decreasing in discovery order and
the queue spans at most two depth levels; every dequeued node's
traversable successors are visited with depth at most one more;
the goal has not been dequeued; `order` starts at `start` (or the state is
initial); and `start` is the chain root. -/
def BfsInv (g : Graph) (acc : Bool) (start goal : String)
    (q vis : List String) (par : PMap) (order : List String) : Prop :=
  ∃ dep : String → Nat,
    (∀ x, x ∈ vis ↔ x ∈ order ∨ x ∈ q) ∧
    (∀ x, (assocFind par x).isSome ↔ x ∈ vis) ∧
    (par.map Prod.fst).Nodup ∧
    (∀ x ∈ vis, ∃ l, PChain par x l ∧ IsPath g acc start x l ∧
      l.length = dep x + 1) ∧
    (order ++ q).Pairwise (fun a b => dep a ≤ dep b) ∧
    (∀ h, q.head? = some h → ∀ x ∈ q, dep x ≤ dep h + 1) ∧
    (∀ a ∈ order, ∀ w, traversable g acc a w = true →
      w ∈ vis ∧ dep w ≤ dep a + 1) ∧
    goal ∉ order ∧
    ((order = [] ∧ q = [start] ∧ vis = [start] ∧ par = [(start, none)]) ∨
      order.head? = some start) ∧
    (order ++ q).Nodup ∧
    assocFind par start = some none ∧
    dep start = 0

/-- One dequeue step (of a non-goal node) preserves the BFS invariant, and
the fuel measure `|q| + newCount` drops by exactly one. -/
theorem bfs_step_inv {g : Graph} {acc : Bool} {start goal : String}
    (hWF : WF g) {u : String} {qs vis : List String} {par : PMap}
    {order : List String}
    (hinv : BfsInv g acc start goal (u :: qs) vis par order)
    (hne : u ≠ goal) :
    BfsInv g acc start goal
      (bfsScan g acc u (g.neighbors u acc) (vis, par, qs)).2.2
      (bfsScan g acc u (g.neighbors u acc) (vis, par, qs)).1
      (bfsScan g acc u (g.neighbors u acc) (vis, par, qs)).2.1
      (order ++ [u]) ∧
    (bfsScan g acc u (g.neighbors u acc) (vis, par, qs)).2.2.length +
      newCount g (bfsScan g acc u (g.neighbors u acc) (vis, par, qs)).1 + 1 =
      (u :: qs).length + newCount g vis := by
  obtain ⟨dep, hvq, hkeys, hknd, hchains, hsorted, hband, hstep, hgoal,
    hstart9, hnodup, hfst, hdep0⟩ := hinv
  obtain ⟨news, hscan, hnnd, hnews, hcompl⟩ :=
    bfsScan_spec g acc u (g.neighbors u acc) vis par qs
  rw [hscan]
  dsimp only
  have hu_vis : u ∈ vis := (hvq u).2 (Or.inr (List.mem_cons_self u qs))
  have hdisj : ∀ x ∈ vis, x ∉ news := fun x hx hxn => (hnews x hxn).1 hx
  have htouch : ∀ w ∈ news, w ∈ g.touches :=
    fun w hw => (neighbors_touches (hnews w hw).2.2).1
  have hparpres : ∀ x, (assocFind par x).isSome →
      assocFind (news.foldl (fun pp w => assocSet pp w (some u)) par) x =
        assocFind par x :=
    fun x hx => foldl_assocSet_find_notmem _ x
      (fun hxn => (hnews x hxn).1 ((hkeys x).1 hx))
  have hstart_vis : start ∈ vis := by
    rcases hstart9 with ⟨ho, hq, hv, hp⟩ | hh
    · rw [hv]
      exact List.mem_cons_self _ _
    · exact (hvq start).2 (Or.inl (mem_of_head?_eq hh))
  have hcross := (List.pairwise_append.1 hsorted).2.2
  have hq_pair := (List.pairwise_append.1 hsorted).2.1
  have hqu : ∀ z ∈ qs, dep u ≤ dep z := (List.pairwise_cons.1 hq_pair).1
  have hband_u : ∀ x ∈ u :: qs, dep x ≤ dep u + 1 := hband u rfl
  have hvis_bound : ∀ x ∈ vis, dep x ≤ dep u + 1 := by
    intro x hx
    rcases (hvq x).1 hx with hxo | hxq
    · exact (hcross x hxo u (List.mem_cons_self u qs)).trans (Nat.le_succ _)
    · exact hband_u x hxq
  constructor
  · refine ⟨fun x => if x ∈ news then dep u + 1 else dep x,
      ?_, ?_, ?_, ?_, ?_, ?_, ?_, ?_, ?_, ?_, ?_, ?_⟩
    · intro x
      simp only [List.mem_append, List.mem_reverse, List.mem_singleton, hvq x,
        List.mem_cons]
      tauto
    · intro x
      rw [foldl_assocSet_isSome]
      simp only [List.mem_append, List.mem_reverse, hkeys x]
    · exact foldl_assocSet_keys_nodup _ hknd
    · intro x hx
      dsimp only
      rcases List.mem_append.1 hx with hxn | hxv
      · rw [List.mem_reverse] at hxn
        obtain ⟨lu, hluc, hlup, hlulen⟩ := hchains u hu_vis
        have hfx : assocFind
            (news.foldl (fun pp w => assocSet pp w (some u)) par) x =
            some (some u) := foldl_assocSet_find_mem _ x hxn hnnd
        refine ⟨lu ++ [x],
          PChain.step x u lu hfx (pchain_preserve hparpres hluc),
          isPath_snoc hlup (hnews x hxn).2.1, ?_⟩
        rw [if_pos hxn, List.length_append, hlulen]
        simp
      · obtain ⟨l, hc, hp, hl⟩ := hchains x hxv
        exact ⟨l, pchain_preserve hparpres hc, hp,
          by rw [if_neg (hdisj x hxv), hl]⟩
    · have hlist : (order ++ [u]) ++ (qs ++ news) = (order ++ u :: qs) ++ news := by
        simp
      rw [hlist, List.pairwise_append]
      refine ⟨?_, ?_, ?_⟩
      · refine hsorted.imp_of_mem ?_
        intro a b ha hb hab
        dsimp only
        have ha' : a ∈ vis := (hvq a).2 (List.mem_append.1 ha)
        have hb' : b ∈ vis := (hvq b).2 (List.mem_append.1 hb)
        rw [if_neg (hdisj a ha'), if_neg (hdisj b hb')]
        exact hab
      · refine List.pairwise_of_forall_mem_list ?_
        intro a ha b hb
        dsimp only
        rw [if_pos ha, if_pos hb]
      · intro a ha b hb
        dsimp only
        have ha' : a ∈ vis := (hvq a).2 (List.mem_append.1 ha)
        rw [if_neg (hdisj a ha'), if_pos hb]
        exact hvis_bound a ha'
    · intro h hh x hx
      dsimp only
      have hx' := List.mem_append.1 hx
      cases qs with
      | nil =>
        have hhn : h ∈ news := mem_of_head?_eq (by simpa using hh)
        have hxn : x ∈ news := by
          rcases hx' with hc | hc
          · simp at hc
          · exact hc
        rw [if_pos hxn, if_pos hhn]
        exact Nat.le_succ _
      | cons h₀ qs' =>
        obtain rfl : h = h₀ := by
          have hh' : (h₀ :: (qs' ++ news)).head? = some h := by simpa using hh
          exact (Option.some.inj hh').symm
        have hh₀_vis : h ∈ vis :=
          (hvq h).2 (Or.inr (List.mem_cons_of_mem _ (List.mem_cons_self _ _)))
        rw [if_neg (hdisj h hh₀_vis)]
        have hdu : dep u ≤ dep h := hqu h (List.mem_cons_self _ _)
        rcases hx' with hxq | hxn
        · have hx_vis : x ∈ vis :=
            (hvq x).2 (Or.inr (List.mem_cons_of_mem _ hxq))
          rw [if_neg (hdisj x hx_vis)]
          exact (hband_u x (List.mem_cons_of_mem _ hxq)).trans
            (Nat.succ_le_succ hdu)
        · rw [if_pos hxn]
          exact Nat.succ_le_succ hdu
    · intro a ha w htr
      dsimp only
      rcases List.mem_append.1 ha with hao | hau
      · obtain ⟨hwv, hwd⟩ := hstep a hao w htr
        have ha_vis : a ∈ vis := (hvq a).2 (Or.inl hao)
        refine ⟨by simp [hwv], ?_⟩
        rw [if_neg (hdisj w hwv), if_neg (hdisj a ha_vis)]
        exact hwd
      · obtain rfl : a = u := by simpa using hau
        rw [if_neg (hdisj a hu_vis)]
        by_cases hwv : w ∈ vis
        · refine ⟨by simp [hwv], ?_⟩
          rw [if_neg (hdisj w hwv)]
          exact hvis_bound w hwv
        · have hwn : w ∈ news := hcompl w
            ((mem_neighbors_iff_traversable hWF acc a w).2 htr) htr hwv
          refine ⟨by simp [hwn], ?_⟩
          rw [if_pos hwn]
    · intro hmem
      rcases List.mem_append.1 hmem with h | h
      · exact hgoal h
      · have h' : goal = u := by simpa using h
        exact hne h'.symm
    · right
      rcases hstart9 with ⟨ho, hq, hv, hp⟩ | hh
      · subst ho
        have hq' : u = start ∧ qs = [] := by
          have hq2 := hq
          simp at hq2
          exact hq2
        obtain ⟨rfl, -⟩ := hq'
        simp
      · cases horder : order with
        | nil =>
          rw [horder] at hh
          simp at hh
        | cons o t =>
          rw [horder] at hh
          exact hh
    · have hlist : (order ++ [u]) ++ (qs ++ news) = (order ++ u :: qs) ++ news := by
        simp
      rw [hlist, List.nodup_append]
      refine ⟨hnodup, hnnd, ?_⟩
      intro x hx hxn
      exact (hnews x hxn).1 ((hvq x).2 (List.mem_append.1 hx))
    · rw [hparpres start (by rw [hfst]; rfl), hfst]
    · dsimp only
      rw [if_neg (hdisj start hstart_vis)]
      exact hdep0
  · have hcount : newCount g (news.reverse ++ vis) + news.length = newCount g vis := by
      refine newCount_union news vis _ (by intro x; simp) hnnd ?_
      exact fun w hw => ⟨htouch w hw, (hnews w hw).1⟩
    simp only [List.length_append, List.length_cons]
    omega

theorem isPath_append_break {g : Graph} {acc : Bool} {s t z : String}
    {m₁ m₂ : List String} (hm₁ : m₁ ≠ [])
    (h : IsPath g acc s t (m₁ ++ z :: m₂)) :
    ∃ a, m₁.getLast? = some a ∧ IsPath g acc s a m₁ ∧
      traversable g acc a z = true := by
  obtain ⟨hne, hhd, hlast, hch⟩ := h
  rw [List.chain'_append] at hch
  obtain ⟨hch1, hch2, hcr⟩ := hch
  obtain ⟨a, ha⟩ : ∃ a, m₁.getLast? = some a := by
    obtain ⟨x, rest, rfl⟩ := List.exists_cons_of_ne_nil hm₁
    exact Option.isSome_iff_exists.1 (by simp)
  refine ⟨a, ha, ⟨hm₁, ?_, ha, hch1⟩, ?_⟩
  · rwa [List.head?_append_of_ne_nil _ hm₁] at hhd
  · refine hcr a ?_ z ?_
    · rw [ha]
      rfl
    · rfl

/-- Depth bound along paths that stay inside the dequeued list: every node
reached by a traversable path lying in `order` has depth at most the edge
count of that path. -/
theorem depth_bound_in_order {g : Graph} {acc : Bool} {start : String}
    {order vis : List String} {dep : String → Nat}
    (hstep : ∀ a ∈ order, ∀ w, traversable g acc a w = true →
      w ∈ vis ∧ dep w ≤ dep a + 1)
    (hdep0 : dep start = 0) :
    ∀ m z, IsPath g acc start z m → (∀ x ∈ m, x ∈ order) →
      dep z + 1 ≤ m.length := by
  intro m
  induction m using List.reverseRecOn with
  | nil =>
    intro z h _
    exact absurd rfl h.1
  | append_singleton l b ih =>
    intro z hpath hmem
    have hzb : z = b := by
      have hl := hpath.2.2.1
      rw [List.getLast?_concat] at hl
      exact (Option.some.inj hl).symm
    subst hzb
    by_cases hl0 : l = []
    · rw [hl0] at hpath ⊢
      obtain ⟨rfl, -⟩ := isPath_singleton_iff.1 (by simpa using hpath)
      simp [hdep0]
    · have hpath' : IsPath g acc start z (l ++ z :: []) := hpath
      obtain ⟨a, ha, hpa, htr⟩ := isPath_append_break hl0 hpath'
      have hmem_l : ∀ y ∈ l, y ∈ order :=
        fun y hy => hmem y (List.mem_append_left _ hy)
      have hIH := ih a hpa hmem_l
      have hao : a ∈ order := hmem_l a (mem_of_getLast?_eq ha)
      have hstep_a := (hstep a hao z htr).2
      have hlen : (l ++ [z]).length = l.length + 1 := by simp
      omega

theorem dropWhile_head_not {α : Type} (p : α → Bool) :
    ∀ (l : List α) {z : α} {r : List α}, l.dropWhile p = z :: r →
      p z = false := by
  intro l
  induction l with
  | nil =>
    intro z r h
    simp [List.dropWhile] at h
  | cons a t ih =>
    intro z r h
    by_cases hp : p a = true
    · rw [List.dropWhile_cons_of_pos hp] at h
      exact ih h
    · rw [List.dropWhile_cons_of_neg (by simpa using hp)] at h
      obtain ⟨rfl, -⟩ : a = z ∧ t = r := by
        have h' := h
        simp at h'
        exact h'
      exact eq_false_of_not_true hp

/-- When the goal is dequeued, its depth is a lower bound for every
traversable path from `start` to it: the BFS minimality core. -/
theorem bfs_min_lemma {g : Graph} {acc : Bool} {start goal : String}
    {qs vis : List String} {par : PMap} {order : List String}
    {dep : String → Nat}
    (hvq : ∀ x, x ∈ vis ↔ x ∈ order ∨ x ∈ goal :: qs)
    (hsorted : (order ++ goal :: qs).Pairwise (fun a b => dep a ≤ dep b))
    (hstep : ∀ a ∈ order, ∀ w, traversable g acc a w = true →
      w ∈ vis ∧ dep w ≤ dep a + 1)
    (hgoal : goal ∉ order)
    (hstart9 : (order = [] ∧ goal :: qs = [start] ∧ vis = [start] ∧
        par = [(start, Option.none)]) ∨ order.head? = some start)
    (hdep0 : dep start = 0) :
    ∀ m, IsPath g acc start goal m → dep goal + 1 ≤ m.length := by
  intro m hm
  rcases hstart9 with ⟨ho, hq, hv, hp⟩ | hh
  · have hgs : goal = start ∧ qs = [] := by simpa using hq
    have hlen : 1 ≤ m.length := by
      have := hm.1
      cases m with
      | nil => exact absurd rfl this
      | cons _ _ => simp
    rw [hgs.1, hdep0]
    omega
  · have hstart_order : start ∈ order := mem_of_head?_eq hh
    set m₁ := m.takeWhile (fun x => decide (x ∈ order)) with hm₁def
    set m₂ := m.dropWhile (fun x => decide (x ∈ order)) with hm₂def
    have hsplit : m₁ ++ m₂ = m := by
      rw [hm₁def, hm₂def]
      exact List.takeWhile_append_dropWhile _ _
    have hmem₁ : ∀ x ∈ m₁, x ∈ order := by
      intro x hx
      rw [hm₁def] at hx
      have := List.mem_takeWhile_imp hx
      simpa using this
    have hm₂ne : m₂ ≠ [] := by
      intro hnil
      have hall : ∀ x ∈ m, x ∈ order := by
        intro x hx
        rw [← hsplit, hnil, List.append_nil] at hx
        exact hmem₁ x hx
      exact hgoal (hall goal (mem_of_getLast?_eq hm.2.2.1))
    obtain ⟨z, m₂', hm₂eq⟩ := List.exists_cons_of_ne_nil hm₂ne
    have hzo : z ∉ order := by
      have hpz := dropWhile_head_not (fun x => decide (x ∈ order)) m
        (by rw [← hm₂def, hm₂eq])
      simpa using hpz
    have hm₁ne : m₁ ≠ [] := by
      obtain ⟨x, rest, hmx⟩ := List.exists_cons_of_ne_nil hm.1
      have hxs : x = start := by
        have hh2 := hm.2.1
        rw [hmx] at hh2
        exact Option.some.inj hh2
      intro hnil
      rw [hm₁def, hmx,
        List.takeWhile_cons_of_pos (by simpa [hxs] using hstart_order)] at hnil
      simp at hnil
    have hmeq : m = m₁ ++ z :: m₂' := by rw [← hsplit, hm₂eq]
    obtain ⟨a, ha, hpa, htr⟩ := isPath_append_break hm₁ne (hmeq ▸ hm)
    have hao : a ∈ order := hmem₁ a (mem_of_getLast?_eq ha)
    have hdep_a := depth_bound_in_order hstep hdep0 m₁ a hpa hmem₁
    obtain ⟨hzvis, hdz⟩ := hstep a hao z htr
    have hzq : z ∈ goal :: qs := by
      rcases (hvq z).1 hzvis with h | h
      · exact absurd h hzo
      · exact h
    have hdgz : dep goal ≤ dep z := by
      rcases List.mem_cons.1 hzq with rfl | hzqs
      · exact le_refl _
      · exact (List.pairwise_cons.1 (List.pairwise_append.1 hsorted).2.1).1 z hzqs
    have hlen : m.length = m₁.length + 1 + m₂'.length := by
      rw [hmeq]
      simp
      omega
    omega

/-- What the BFS loop guarantees on return: the dequeue order extends the
input, is duplicate-free, starts at `start`, and every dequeued node has a
parent-chain path; and either the goal was dequeued last with a
minimum-length reconstructed path, or the goal was never reached, the
dequeue order is exactly the reachable set, and the reconstruction is
empty. -/
def BfsPost (g : Graph) (acc : Bool) (start goal : String)
    (order o' : List String) (p' : PMap) : Prop :=
  (∃ tail, o' = order ++ tail) ∧
  o'.Nodup ∧
  (order = [] → o'.head? = some start) ∧
  (order ≠ [] → o'.head? = order.head?) ∧
  (∀ x ∈ o', ∃ l, PChain p' x l ∧ IsPath g acc start x l) ∧
  ((o'.getLast? = some goal ∧
     ∃ l, PChain p' goal l ∧ IsPath g acc start goal l ∧
       (∀ m, IsPath g acc start goal m → l.length ≤ m.length) ∧
       reconstructPath p' start goal = l) ∨
   (goal ∉ o' ∧ (∀ x, x ∈ o' ↔ Reachable g acc start x) ∧
     reconstructPath p' start goal = []))

/-- The loop on an empty queue: the invariant forces the full-exploration
postcondition. -/
theorem bfs_base {g : Graph} {acc : Bool} {start goal : String}
    {vis : List String} {par : PMap} {order : List String}
    (hinv : BfsInv g acc start goal [] vis par order) (fuel : Nat) :
    ∃ o' p', bfsLoop g goal acc fuel [] vis par order = some (o', p') ∧
      BfsPost g acc start goal order o' p' := by
  obtain ⟨dep, hvq, hkeys, hknd, hchains, hsorted, hband, hstep, hgoal,
    hstart9, hnodup, hfst, hdep0⟩ := hinv
  have hstart_order : order.head? = some start := by
    rcases hstart9 with ⟨ho, hq, hv, hp⟩ | hh
    · exact absurd hq (by simp)
    · exact hh
  have hvis_order : ∀ x, x ∈ vis ↔ x ∈ order := by
    intro x
    rw [hvq x]
    simp
  refine ⟨order, par, by cases fuel <;> rfl, ⟨[], by simp⟩, ?_, ?_, ?_, ?_, ?_⟩
  · simpa using hnodup
  · intro h
    rw [h] at hstart_order
    simp at hstart_order
  · intro _
    rfl
  · intro x hx
    obtain ⟨l, hc, hp, -⟩ := hchains x ((hvis_order x).2 hx)
    exact ⟨l, hc, hp⟩
  · refine Or.inr ⟨hgoal, ?_, ?_⟩
    · intro x
      constructor
      · intro hx
        obtain ⟨l, hc, hp, -⟩ := hchains x ((hvis_order x).2 hx)
        exact ⟨l, hp⟩
      · intro hr
        have hclosed : ∀ y ∈ vis, ∀ w, traversable g acc y w = true → w ∈ vis :=
          fun y hy w htr => (hstep y ((hvis_order y).1 hy) w htr).1
        have hsv : start ∈ vis :=
          (hvis_order start).2 (mem_of_head?_eq hstart_order)
        exact (hvis_order x).1 (reachable_mem_of_closed hclosed hsv x hr)
    · have hgv : goal ∉ vis := fun hg => hgoal ((hvis_order goal).1 hg)
      have hfind : assocFind par goal = none := by
        cases hf : assocFind par goal with
        | none => rfl
        | some v => exact absurd ((hkeys goal).1 (by rw [hf]; rfl)) hgv
      exact reconstruct_no_entry hfind

/-- Main BFS loop lemma: with enough fuel and the invariant, the loop
succeeds and meets the postcondition. -/
theorem bfs_main {g : Graph} {acc : Bool} {start goal : String} (hWF : WF g) :
    ∀ (fuel : Nat) (q vis : List String) (par : PMap) (order : List String),
    BfsInv g acc start goal q vis par order →
    q.length + newCount g vis ≤ fuel →
    ∃ o' p', bfsLoop g goal acc fuel q vis par order = some (o', p') ∧
      BfsPost g acc start goal order o' p' := by
  intro fuel
  induction fuel with
  | zero =>
    intro q vis par order hinv hfuel
    cases q with
    | nil => exact bfs_base hinv 0
    | cons u qs => simp at hfuel
  | succ m ih =>
    intro q vis par order hinv hfuel
    cases q with
    | nil => exact bfs_base hinv (m + 1)
    | cons u qs =>
      by_cases hug : u = goal
      · subst hug
        have hloop : bfsLoop g u acc (m + 1) (u :: qs) vis par order =
            some (order ++ [u], par) := by
          simp [bfsLoop]
        obtain ⟨dep, hvq, hkeys, hknd, hchains, hsorted, hband, hstep, hgoal,
          hstart9, hnodup, hfst, hdep0⟩ := hinv
        have hu_vis : u ∈ vis := (hvq u).2 (Or.inr (List.mem_cons_self _ _))
        obtain ⟨l, hc, hp, hlen⟩ := hchains u hu_vis
        refine ⟨order ++ [u], par, hloop, ⟨[u], rfl⟩, ?_, ?_, ?_, ?_, ?_⟩
        · exact List.Nodup.sublist
            ((List.cons_sublist_cons.2 (List.nil_sublist qs)).append_left order)
            hnodup
        · intro ho
          rcases hstart9 with ⟨ho2, hq, hv, hpp⟩ | hh
          · have hus : u = start ∧ qs = [] := by simpa using hq
            rw [ho, hus.1]
            rfl
          · rw [ho] at hh
            simp at hh
        · intro ho
          exact List.head?_append_of_ne_nil _ ho
        · intro x hx
          rcases List.mem_append.1 hx with hxo | hxu
          · obtain ⟨lx, hcx, hpx, -⟩ := hchains x ((hvq x).2 (Or.inl hxo))
            exact ⟨lx, hcx, hpx⟩
          · obtain rfl : x = u := by simpa using hxu
            exact ⟨l, hc, hp⟩
        · refine Or.inl ⟨List.getLast?_concat _, l, hc, hp, ?_, ?_⟩
          · intro mm hmm
            have := bfs_min_lemma hvq hsorted hstep hgoal hstart9 hdep0 mm hmm
            omega
          · exact pchain_reconstruct hknd hc hp.2.1
      · obtain ⟨hinv', hcount⟩ := bfs_step_inv hWF hinv hug
        have hloop : bfsLoop g goal acc (m + 1) (u :: qs) vis par order =
            bfsLoop g goal acc m
              (bfsScan g acc u (g.neighbors u acc) (vis, par, qs)).2.2
              (bfsScan g acc u (g.neighbors u acc) (vis, par, qs)).1
              (bfsScan g acc u (g.neighbors u acc) (vis, par, qs)).2.1
              (order ++ [u]) := by
          simp only [bfsLoop]
          rw [if_neg hug]
        have hfuel' :
            (bfsScan g acc u (g.neighbors u acc) (vis, par, qs)).2.2.length +
              newCount g (bfsScan g acc u (g.neighbors u acc) (vis, par, qs)).1 ≤ m := by
          have hq : (u :: qs).length + newCount g vis ≤ m + 1 := hfuel
          omega
        obtain ⟨o', p', hrun, hpost⟩ := ih _ _ _ _ hinv' hfuel'
        refine ⟨o', p', by rw [hloop]; exact hrun, ?_⟩
        obtain ⟨⟨tail, htail⟩, hnd, hh1, hh2, hch, hdisj⟩ := hpost
        refine ⟨⟨u :: tail, by rw [htail]; simp⟩, hnd, ?_, ?_, hch, hdisj⟩
        · intro ho
          rw [hh2 (by simp), ho]
          obtain ⟨dep, hvq, hkeys, hknd, hchains, hsorted, hband, hstep,
            hgoal, hstart9, hnodup, hfst, hdep0⟩ := hinv
          rcases hstart9 with ⟨ho2, hq, hv, hpp⟩ | hh
          · have hus : u = start ∧ qs = [] := by simpa using hq
            rw [hus.1]
            rfl
          · rw [ho] at hh
            simp at hh
        · intro ho
          rw [hh2 (by simp)]
          exact List.head?_append_of_ne_nil _ ho

/-- Top-level BFS specification: `App._bfs` returns a dequeue order and a
reconstructed path satisfying the loop postcondition from the initial
state (queue, visited set, and parent map seeded with `start`). -/
theorem bfs_spec (g : Graph) (hWF : WF g) (start goal : String) (acc : Bool) :
    ∃ o' p', bfs g start goal acc = (o', reconstructPath p' start goal) ∧
      BfsPost g acc start goal [] o' p' := by
  have hfind : ∀ x : String, assocFind [(start, (none : Option String))] x =
      if x = start then some none else none := by
    intro x
    by_cases hx : x = start
    · simp [assocFind, hx]
    · simp [assocFind, hx]
  have hinv0 : BfsInv g acc start goal [start] [start] [(start, none)] [] := by
    refine ⟨fun _ => 0, ?_, ?_, ?_, ?_, ?_, ?_, ?_, ?_, ?_, ?_, ?_, ?_⟩
    · intro x
      simp
    · intro x
      rw [hfind x]
      by_cases hx : x = start <;> simp [hx]
    · simp
    · intro x hx
      obtain rfl : x = start := by simpa using hx
      refine ⟨[x], PChain.root x (by rw [hfind]; simp), isPath_singleton g acc x, by simp⟩
    · simp
    · intro h hh x hx
      simp
    · intro a ha
      simp at ha
    · simp
    · exact Or.inl ⟨rfl, rfl, rfl, rfl⟩
    · simp
    · rw [hfind]
      simp
    · rfl
  have hfuel : ([start] : List String).length + newCount g [start] ≤
      g.touches.length + 1 := by
    unfold newCount
    have hle := List.length_filter_le
      (fun x => decide (¬ x ∈ ([start] : List String))) g.touches
    simp only [List.length_cons, List.length_nil]
    omega
  obtain ⟨o', p', hrun, hpost⟩ := bfs_main hWF (g.touches.length + 1)
    [start] [start] [(start, none)] [] hinv0 hfuel
  refine ⟨o', p', ?_, hpost⟩
  unfold bfs
  rw [hrun]

/-! ### DFS: invariant and main lemma -/

/-- Every traversable step out of `x` stays inside `vis`. -/
def ClosedAt (g : Graph) (acc : Bool) (vis : List String) (x : String) : Prop :=
  ∀ w, traversable g acc x w = true → w ∈ vis

/-- Invariant on the mutable DFS state: `visited` and `visited_order` hold
the same names, the order has no duplicates, the parent map has unique
keys, roots `start`, and carries a start-anchored traversable chain (whose
nodes are all visited) for every visited node; once `found` is set the
order ends at `goal`, and before that `goal` is unvisited. -/
def DInv (g : Graph) (acc : Bool) (start goal : String) (s : DfsState) : Prop :=
  (∀ x, x ∈ s.visited ↔ x ∈ s.order) ∧
  s.order.Nodup ∧
  (s.parent.map Prod.fst).Nodup ∧
  assocFind s.parent start = some none ∧
  (∀ x ∈ s.visited, ∃ l, PChain s.parent x l ∧ IsPath g acc start x l ∧
    ∀ y ∈ l, y ∈ s.visited) ∧
  (s.found = true → s.order.getLast? = some goal) ∧
  (s.found = false → goal ∉ s.visited)

/-- How a DFS segment extends the state: visited grows, the order is
extended at the back, and the found flag is monotone. -/
def DExt (s s2 : DfsState) : Prop :=
  (∀ x ∈ s.visited, x ∈ s2.visited) ∧
  (∃ t, s2.order = s.order ++ t) ∧
  (s.found = true → s2.found = true)

theorem dext_refl (s : DfsState) : DExt s s :=
  ⟨fun _ hx => hx, ⟨[], (List.append_nil _).symm⟩, fun h => h⟩

theorem dext_trans {s1 s2 s3 : DfsState} (h12 : DExt s1 s2) (h23 : DExt s2 s3) :
    DExt s1 s3 := by
  obtain ⟨hv12, ⟨t12, ho12⟩, hf12⟩ := h12
  obtain ⟨hv23, ⟨t23, ho23⟩, hf23⟩ := h23
  exact ⟨fun x hx => hv23 x (hv12 x hx),
    ⟨t12 ++ t23, by rw [ho23, ho12, List.append_assoc]⟩,
    fun h => hf23 (hf12 h)⟩

theorem newCount_mono {g : Graph} {v v' : List String}
    (h : ∀ x ∈ v, x ∈ v') : newCount g v' ≤ newCount g v := by
  unfold newCount
  apply List.Sublist.length_le
  apply List.monotone_filter_right
  intro a ha
  simp only [decide_eq_true_eq] at ha ⊢
  exact fun hav => ha (h a hav)

/-- Chain preservation when the parent map changes only away from the
chain's nodes. -/
theorem pchain_preserve_mem {p p' : PMap} {v : String} {l : List String}
    (h : PChain p v l)
    (hagree : ∀ x ∈ l, assocFind p' x = assocFind p x) : PChain p' v l := by
  induction h with
  | root w hw =>
    exact PChain.root w (by rw [hagree w (by simp), hw])
  | step w u l hw hc ih =>
    refine PChain.step w u l (by rw [hagree w (by simp), hw]) ?_
    exact ih (fun x hx => hagree x (by simp [hx]))

/-- Main DFS lemma: with enough fuel the recursive helper `rec` terminates
(no `none`), preserves the invariant, extends the state monotonically,
returns unchanged when `found` was already set, and — on a run that ends
with `found` still unset — leaves every newly visited node closed under
traversable steps. -/
theorem dfsVisit_main {g : Graph} {acc : Bool} {start goal : String}
    (hWF : WF g) :
    ∀ (fuel : Nat) (u : String) (s : DfsState),
    DInv g acc start goal s → u ∉ s.visited → start ∈ u :: s.visited →
    (∃ l, PChain s.parent u l ∧ IsPath g acc start u l ∧
      ∀ y ∈ l, y ∈ u :: s.visited) →
    newCount g (u :: s.visited) + 1 ≤ fuel →
    ∃ s2, dfsVisit g goal acc fuel u s = some s2 ∧
      DInv g acc start goal s2 ∧ DExt s s2 ∧
      (s.found = true → s2 = s) ∧
      (s.found = false → u ∈ s2.visited ∧
        (∃ t, s2.order = s.order ++ u :: t) ∧
        (s2.found = false → ∀ x ∈ s2.visited, x ∉ s.visited →
          ClosedAt g acc s2.visited x)) := by
  intro fuel
  induction fuel with
  | zero =>
    intro u s _ _ _ _ hf
    exact absurd hf (Nat.not_succ_le_zero _)
  | succ f ih =>
    have hnbrs : ∀ (ws : List String) (u : String) (s : DfsState),
        DInv g acc start goal s → u ∈ s.visited → start ∈ s.visited →
        newCount g s.visited ≤ f →
        ∃ s2, dfsNbrs g acc (dfsVisit g goal acc f) u ws s = some s2 ∧
          DInv g acc start goal s2 ∧ DExt s s2 ∧
          (s2.found = false →
            (∀ w ∈ ws, traversable g acc u w = true → w ∈ s2.visited) ∧
            (∀ x ∈ s2.visited, x ∉ s.visited →
              ClosedAt g acc s2.visited x)) := by
      intro ws
      induction ws with
      | nil =>
        intro u s hinv hu hst hf
        exact ⟨s, rfl, hinv, dext_refl s,
          fun _ => ⟨by simp, fun x hx hnx => absurd hx hnx⟩⟩
      | cons w ws ihw =>
        intro u s hinv hu hst hf
        cases hge : g.get_edge u w with
        | none =>
          obtain ⟨s2, heq, hinv2, hext2, hpost2⟩ := ihw u s hinv hu hst hf
          refine ⟨s2, ?_, hinv2, hext2, ?_⟩
          · simp only [dfsNbrs, hge]
            exact heq
          · intro hf2
            obtain ⟨hws2, hcl2⟩ := hpost2 hf2
            refine ⟨?_, hcl2⟩
            intro w' hw' htr'
            rcases List.mem_cons.1 hw' with rfl | hw'ws
            · rw [traversable_none hge] at htr'
              cases htr'
            · exact hws2 w' hw'ws htr'
        | some e =>
          by_cases hskip : (e.closed || (acc && !e.accessible)) = true
          · obtain ⟨s2, heq, hinv2, hext2, hpost2⟩ := ihw u s hinv hu hst hf
            refine ⟨s2, ?_, hinv2, hext2, ?_⟩
            · simp only [dfsNbrs, hge]
              rw [if_pos hskip]
              exact heq
            · intro hf2
              obtain ⟨hws2, hcl2⟩ := hpost2 hf2
              refine ⟨?_, hcl2⟩
              intro w' hw' htr'
              rcases List.mem_cons.1 hw' with rfl | hw'ws
              · obtain ⟨h1, h2⟩ := (traversable_some hge).1 htr'
                rw [h1, h2] at hskip
                simp at hskip
              · exact hws2 w' hw'ws htr'
          · by_cases hwv : w ∈ s.visited
            · obtain ⟨s2, heq, hinv2, hext2, hpost2⟩ := ihw u s hinv hu hst hf
              refine ⟨s2, ?_, hinv2, hext2, ?_⟩
              · simp only [dfsNbrs, hge]
                rw [if_neg hskip, if_pos hwv]
                exact heq
              · intro hf2
                obtain ⟨hws2, hcl2⟩ := hpost2 hf2
                refine ⟨?_, hcl2⟩
                intro w' hw' htr'
                rcases List.mem_cons.1 hw' with rfl | hw'ws
                · exact hext2.1 w' hwv
                · exact hws2 w' hw'ws htr'
            · -- an unvisited traversable neighbor: record the parent and recurse
              have hsk : e.closed = false ∧ (acc && !e.accessible) = false :=
                Bool.or_eq_false_iff.1 (eq_false_of_not_true hskip)
              have htr : traversable g acc u w = true :=
                (traversable_some hge).2 hsk
              obtain ⟨hmem, hond, hpnd, hpst, hch, hflast, hfgoal⟩ := hinv
              have hwst : w ≠ start := fun hh => hwv (hh ▸ hst)
              have hchp : ∀ x ∈ s.visited,
                  ∃ l, PChain (assocSet s.parent w (some u)) x l ∧
                    IsPath g acc start x l ∧ ∀ y ∈ l, y ∈ s.visited := by
                intro x hx
                obtain ⟨l, hc, hp, hsub⟩ := hch x hx
                refine ⟨l, pchain_preserve_mem hc ?_, hp, hsub⟩
                intro y hy
                exact assocFind_assocSet_ne _ _ _ _
                  (fun hyw => hwv (hyw ▸ hsub y hy))
              have hinvp : DInv g acc start goal
                  { s with parent := assocSet s.parent w (some u) } := by
                refine ⟨hmem, hond, assocSet_keys_nodup _ _ _ hpnd, ?_, hchp,
                  hflast, hfgoal⟩
                rw [assocFind_assocSet_ne _ _ _ _ (Ne.symm hwst)]
                exact hpst
              obtain ⟨lu, hcu, hpu, hsubu⟩ := hchp u hu
              have hchw : ∃ l, PChain (assocSet s.parent w (some u)) w l ∧
                  IsPath g acc start w l ∧ ∀ y ∈ l, y ∈ w :: s.visited := by
                refine ⟨lu ++ [w],
                  PChain.step w u lu (assocFind_assocSet_self _ _ _) hcu,
                  isPath_snoc hpu htr, ?_⟩
                intro y hy
                rcases List.mem_append.1 hy with h1 | h1
                · exact List.mem_cons.2 (Or.inr (hsubu y h1))
                · rw [List.mem_singleton] at h1
                  exact List.mem_cons.2 (Or.inl h1)
              have hwt : w ∈ g.touches := (get_edge_touches hge).2
              have hfw : newCount g (w :: s.visited) + 1 ≤ f := by
                have hc := newCount_cons (g := g) hwt hwv
                omega
              obtain ⟨s2, heq2, hinv2, hext2, hfnd2, hprog2⟩ :=
                ih w { s with parent := assocSet s.parent w (some u) } hinvp
                  hwv (List.mem_cons.2 (Or.inr hst)) hchw hfw
              obtain ⟨s3, heq3, hinv3, hext3, hpost3⟩ :=
                ihw u s2 hinv2 (hext2.1 u hu) (hext2.1 start hst)
                  (le_trans (newCount_mono hext2.1) hf)
              refine ⟨s3, ?_, hinv3, ?_, ?_⟩
              · simp only [dfsNbrs, hge]
                rw [if_neg hskip, if_neg hwv, heq2]
                exact heq3
              · refine dext_trans (dext_trans ?_ hext2) hext3
                exact ⟨fun x hx => hx, ⟨[], (List.append_nil _).symm⟩,
                  fun h => h⟩
              · intro hf3
                have hf2 : s2.found = false := by
                  cases h2f : s2.found
                  · rfl
                  · rw [hext3.2.2 h2f] at hf3
                    cases hf3
                have hsf : s.found = false := by
                  cases hsf' : s.found
                  · rfl
                  · have hm2 : s2.found = true := hext2.2.2 hsf'
                    rw [hm2] at hf2
                    cases hf2
                obtain ⟨hw2, hord2, hclose2⟩ := hprog2 hsf
                obtain ⟨hws3, hclose3⟩ := hpost3 hf3
                constructor
                · intro w' hw' htr'
                  rcases List.mem_cons.1 hw' with rfl | hw'ws
                  · exact hext3.1 w' hw2
                  · exact hws3 w' hw'ws htr'
                · intro x hx3 hxs
                  by_cases hx2 : x ∈ s2.visited
                  · have hcx := hclose2 hf2 x hx2 hxs
                    intro w' htr'
                    exact hext3.1 w' (hcx w' htr')
                  · exact hclose3 x hx3 hx2
    intro u s hinv hu hst hchain hf
    by_cases hfound : s.found = true
    · refine ⟨s, ?_, hinv, dext_refl s, fun _ => rfl, ?_⟩
      · show dfsVisit g goal acc (f + 1) u s = some s
        simp [dfsVisit, hfound]
      · intro hff
        rw [hff] at hfound
        cases hfound
    · have hfound' : s.found = false := eq_false_of_not_true hfound
      obtain ⟨hmem, hond, hpnd, hpst, hch, hflast, hfgoal⟩ := hinv
      have huo : u ∉ s.order := fun h => hu ((hmem u).2 h)
      have hmem1 : ∀ x, x ∈ u :: s.visited ↔ x ∈ s.order ++ [u] := by
        intro x
        simp only [List.mem_cons, List.mem_append, List.mem_singleton, hmem x]
        tauto
      have hond1 : (s.order ++ [u]).Nodup := by
        simp [List.nodup_append, hond, huo]
      have hch1 : ∀ x ∈ u :: s.visited,
          ∃ l, PChain s.parent x l ∧ IsPath g acc start x l ∧
            ∀ y ∈ l, y ∈ u :: s.visited := by
        intro x hx
        rcases List.mem_cons.1 hx with rfl | hxv
        · exact hchain
        · obtain ⟨l, hc, hp, hsub⟩ := hch x hxv
          exact ⟨l, hc, hp, fun y hy => List.mem_cons.2 (Or.inr (hsub y hy))⟩
      by_cases hug : u = goal
      · subst hug
        refine ⟨⟨u :: s.visited, s.order ++ [u], s.parent, true⟩,
          ?_, ?_, ?_, ?_, ?_⟩
        · simp [dfsVisit, hfound']
        · exact ⟨hmem1, hond1, hpnd, hpst, hch1,
            fun _ => List.getLast?_concat _,
            fun h => by cases h⟩
        · exact ⟨fun x hx => List.mem_cons.2 (Or.inr hx), ⟨[u], rfl⟩,
            fun _ => rfl⟩
        · intro h
          rw [h] at hfound'
          cases hfound'
        · exact fun _ => ⟨List.mem_cons.2 (Or.inl rfl), ⟨[], rfl⟩,
            fun h x hx hnx => by cases h⟩
      · have hinv1 : DInv g acc start goal
            { s with visited := u :: s.visited, order := s.order ++ [u] } := by
          refine ⟨hmem1, hond1, hpnd, hpst, hch1, ?_, ?_⟩
          · intro h
            rw [hfound'] at h
            cases h
          · intro _
            intro hgm
            rcases List.mem_cons.1 hgm with h1 | h1
            · exact hug h1.symm
            · exact hfgoal hfound' h1
        obtain ⟨s3, heqn, hinv3, hext3, hpost3⟩ :=
          hnbrs (g.neighbors u acc) u
            { s with visited := u :: s.visited, order := s.order ++ [u] }
            hinv1 (List.mem_cons.2 (Or.inl rfl)) hst
            (by show newCount g (u :: s.visited) ≤ f; omega)
        refine ⟨s3, ?_, hinv3, ?_, ?_, ?_⟩
        · have hdef : dfsVisit g goal acc (f + 1) u s =
              dfsNbrs g acc (dfsVisit g goal acc f) u (g.neighbors u acc)
                { s with visited := u :: s.visited, order := s.order ++ [u] } := by
              simp [dfsVisit, hfound', hug]
          rw [hdef]
          exact heqn
        · refine dext_trans ?_ hext3
          exact ⟨fun x hx => List.mem_cons.2 (Or.inr hx), ⟨[u], rfl⟩,
            fun h => h⟩
        · intro h
          rw [h] at hfound'
          cases hfound'
        · intro _
          refine ⟨hext3.1 u (List.mem_cons.2 (Or.inl rfl)), ?_, ?_⟩
          · obtain ⟨t, ht⟩ := hext3.2.1
            exact ⟨t, by rw [ht]; simp⟩
          · intro hf3 x hx3 hxs
            by_cases hxu : x = u
            · subst hxu
              intro w' htr'
              exact (hpost3 hf3).1 w'
                ((mem_neighbors_iff_traversable hWF acc x w').2 htr') htr'
            · refine (hpost3 hf3).2 x hx3 ?_
              intro hx1
              rcases List.mem_cons.1 hx1 with h1 | h1
              · exact hxu h1
              · exact hxs h1

/-- Shared top-level postcondition of both traversal engines on
`(visited_order, path)`: the order has no duplicates, starts at `start`,
and holds only reachable nodes; and either it ends at the goal with the
path a traversable start-to-goal walk, or the goal was never reached, the
order is exactly the reachable set, and the path is empty. -/
def TravPost (g : Graph) (acc : Bool) (start goal : String)
    (o p : List String) : Prop :=
  o.Nodup ∧ o.head? = some start ∧
  (∀ x ∈ o, Reachable g acc start x) ∧
  ((o.getLast? = some goal ∧ IsPath g acc start goal p) ∨
   (goal ∉ o ∧ (∀ x, x ∈ o ↔ Reachable g acc start x) ∧ p = []))

/-- `App._bfs` satisfies the shared postcondition; moreover whenever any
traversable start-to-goal path exists, the returned path is one of minimum
length. -/
theorem bfs_post (g : Graph) (hWF : WF g) (start goal : String) (acc : Bool) :
    TravPost g acc start goal (bfs g start goal acc).1 (bfs g start goal acc).2 ∧
    ∀ m, IsPath g acc start goal m →
      IsPath g acc start goal (bfs g start goal acc).2 ∧
      (bfs g start goal acc).2.length ≤ m.length := by
  obtain ⟨o', p', heq, hpost⟩ := bfs_spec g hWF start goal acc
  rw [heq]
  obtain ⟨⟨tail, ho⟩, hnd, hhd0, hhdne, hchains, hdisj⟩ := hpost
  have hhd : o'.head? = some start := hhd0 rfl
  refine ⟨⟨hnd, hhd, ?_, ?_⟩, ?_⟩
  · intro x hx
    obtain ⟨l, -, hp⟩ := hchains x hx
    exact ⟨l, hp⟩
  · rcases hdisj with ⟨hlast, l, hcl, hpl, hmin, hrec⟩ | ⟨hgno, hiff, hrec⟩
    · rw [hrec]
      exact Or.inl ⟨hlast, hpl⟩
    · rw [hrec]
      exact Or.inr ⟨hgno, hiff, rfl⟩
  · intro m hm
    rcases hdisj with ⟨hlast, l, hcl, hpl, hmin, hrec⟩ | ⟨hgno, hiff, hrec⟩
    · rw [hrec]
      exact ⟨hpl, hmin m hm⟩
    · exact absurd ((hiff goal).2 ⟨m, hm⟩) hgno

/-- `App._dfs` satisfies the shared postcondition. -/
theorem dfs_post (g : Graph) (hWF : WF g) (start goal : String) (acc : Bool) :
    TravPost g acc start goal
      (dfs g start goal acc).1 (dfs g start goal acc).2 := by
  have hinv0 : DInv g acc start goal ⟨[], [], [(start, none)], false⟩ := by
    refine ⟨by simp, by simp, by simp, by simp [assocFind], ?_, ?_, ?_⟩
    · intro x hx
      simp at hx
    · intro h
      cases h
    · intro _
      simp
  have hchain0 : ∃ l, PChain ([(start, (none : Option String))]) start l ∧
      IsPath g acc start start l ∧
      ∀ y ∈ l, y ∈ start :: ([] : List String) := by
    refine ⟨[start], PChain.root start (by simp [assocFind]),
      isPath_singleton g acc start, ?_⟩
    intro y hy
    rw [List.mem_singleton] at hy
    simp [hy]
  have hfuel : newCount g (start :: ([] : List String)) + 1 ≤
      g.touches.length + 1 := by
    unfold newCount
    have hle := List.length_filter_le
      (fun x => decide (¬ x ∈ (start :: ([] : List String)))) g.touches
    omega
  obtain ⟨s2, heq, hinv, hext, hfnd, hprog⟩ :=
    dfsVisit_main hWF (g.touches.length + 1) start ⟨[], [], [(start, none)], false⟩
      hinv0 (by simp) (by simp) hchain0 hfuel
  obtain ⟨hsv, ⟨t, hord⟩, hclosure⟩ := hprog rfl
  obtain ⟨hmem, hond, hpnd, hpst, hch, hflast, hfgoal⟩ := hinv
  unfold dfs
  rw [heq]
  dsimp only
  have hhd : s2.order.head? = some start := by
    rw [hord]
    rfl
  refine ⟨hond, hhd, ?_, ?_⟩
  · intro x hx
    obtain ⟨l, -, hp, -⟩ := hch x ((hmem x).2 hx)
    exact ⟨l, hp⟩
  · cases hf2 : s2.found with
    | true =>
      refine Or.inl ⟨hflast hf2, ?_⟩
      have hgo : goal ∈ s2.order := mem_of_getLast?_eq (hflast hf2)
      obtain ⟨l, hc, hp, -⟩ := hch goal ((hmem goal).2 hgo)
      have hrec : reconstructPath s2.parent start goal = l :=
        pchain_reconstruct hpnd hc hp.2.1
      rw [if_pos rfl, hrec]
      exact hp
    | false =>
      refine Or.inr ⟨?_, ?_, ?_⟩
      · intro hgo
        exact hfgoal hf2 ((hmem goal).2 hgo)
      · intro x
        constructor
        · intro hx
          obtain ⟨l, -, hp, -⟩ := hch x ((hmem x).2 hx)
          exact ⟨l, hp⟩
        · intro hr
          refine (hmem x).1 ?_
          refine reachable_mem_of_closed ?_ hsv x hr
          intro y hy w htr
          exact hclosure hf2 y hy (by simp) w htr
      · simp

/-- The traversal edge filter, spelled as the spec does: the edge exists,
is not closed, and is accessible whenever the accessible-only flag is set. -/
theorem traversable_iff_exists {g : Graph} {acc : Bool} {a b : String} :
    traversable g acc a b = true ↔
      ∃ e, g.get_edge a b = some e ∧ e.closed = false ∧
        (acc = true → e.accessible = true) := by
  cases hge : g.get_edge a b with
  | none =>
    rw [traversable_none hge]
    simp
  | some e =>
    rw [traversable_some hge]
    constructor
    · rintro ⟨h1, h2⟩
      refine ⟨e, rfl, h1, ?_⟩
      intro ha
      rw [ha] at h2
      cases hea : e.accessible
      · rw [hea] at h2
        cases h2
      · rfl
    · rintro ⟨e', he', h1, h2⟩
      obtain rfl := Option.some.inj he'
      refine ⟨h1, ?_⟩
      cases ha : acc
      · rfl
      · rw [h2 ha]
        rfl

theorem ne_nil_of_head?_eq {α : Type} {l : List α} {a : α}
    (h : l.head? = some a) : l ≠ [] := by
  intro h0
  rw [h0] at h
  cases h

/-- A concrete traversable walk on the demo fixture. -/
theorem demo_path_ACD : IsPath demoGraph false "A" "D" ["A", "C", "D"] := by
  refine ⟨by decide, rfl, rfl, ?_⟩
  refine List.chain'_cons.2 ⟨by decide, ?_⟩
  refine List.chain'_cons.2 ⟨by decide, ?_⟩
  exact List.chain'_singleton _

/-- C1: on a well-formed model, for existing distinct `start`/`goal` and
any accessible-only flag, if some traversable path joins them then the BFS
path is non-empty, is a traversable start-to-goal walk, and has the
minimum possible edge count over all such walks; consequently whenever DFS
also returns a non-empty path, the BFS edge count is at most the DFS edge
count. -/
theorem bfs_shortest_path (g : Graph) (hWF : WF g) (start goal : String)
    (acc : Bool) (hs : (assocFind g.nodes start).isSome)
    (hg : (assocFind g.nodes goal).isSome) (hne : start ≠ goal)
    (hr : Reachable g acc start goal) :
    (bfs g start goal acc).2 ≠ [] ∧
    IsPath g acc start goal (bfs g start goal acc).2 ∧
    (∀ m, IsPath g acc start goal m →
      (bfs g start goal acc).2.length - 1 ≤ m.length - 1) ∧
    ((dfs g start goal acc).2 ≠ [] →
      (bfs g start goal acc).2.length - 1 ≤
        (dfs g start goal acc).2.length - 1) := by
  obtain ⟨m0, hm0⟩ := hr
  obtain ⟨-, hmin⟩ := bfs_post g hWF start goal acc
  obtain ⟨hbp, -⟩ := hmin m0 hm0
  refine ⟨hbp.1, hbp, ?_, ?_⟩
  · intro m hm
    exact Nat.sub_le_sub_right (hmin m hm).2 1
  · intro hdne
    have hdpost := dfs_post g hWF start goal acc
    rcases hdpost.2.2.2 with ⟨-, hdp⟩ | ⟨-, -, hdp⟩
    · exact Nat.sub_le_sub_right (hmin _ hdp).2 1
    · exact absurd hdp hdne

/-- C1 witness at the demo fixture. -/
theorem bfs_shortest_path_witness :
    Reachable demoGraph false "A" "D" ∧
    (bfs demoGraph "A" "D" false).2 ≠ [] ∧
    (bfs demoGraph "A" "D" false).2.length - 1 ≤
      (dfs demoGraph "A" "D" false).2.length - 1 := by
  have h := bfs_shortest_path demoGraph ⟨by decide, by decide⟩ "A" "D" false
    (by decide) (by decide) (by decide) ⟨["A", "C", "D"], demo_path_ACD⟩
  exact ⟨⟨["A", "C", "D"], demo_path_ACD⟩, h.1, h.2.2.2 (by decide)⟩

/-- C3: for both engines on a well-formed model — a non-empty returned
path starts at `start`, ends at `goal`, and joins each consecutive pair by
an edge that currently exists, is not closed, and is accessible when the
flag is set; an unreachable goal yields (without error) an empty path and
a non-empty visited order holding exactly the reachable nodes. -/
theorem traversal_path_valid (g : Graph) (hWF : WF g) (start goal : String)
    (acc : Bool) :
    ((bfs g start goal acc).2 ≠ [] →
      (bfs g start goal acc).2.head? = some start ∧
      (bfs g start goal acc).2.getLast? = some goal ∧
      List.Chain' (fun a b => ∃ e, g.get_edge a b = some e ∧
        e.closed = false ∧ (acc = true → e.accessible = true))
        (bfs g start goal acc).2) ∧
    ((dfs g start goal acc).2 ≠ [] →
      (dfs g start goal acc).2.head? = some start ∧
      (dfs g start goal acc).2.getLast? = some goal ∧
      List.Chain' (fun a b => ∃ e, g.get_edge a b = some e ∧
        e.closed = false ∧ (acc = true → e.accessible = true))
        (dfs g start goal acc).2) ∧
    (¬ Reachable g acc start goal →
      (bfs g start goal acc).2 = [] ∧ (bfs g start goal acc).1 ≠ [] ∧
      (∀ x, x ∈ (bfs g start goal acc).1 ↔ Reachable g acc start x) ∧
      (dfs g start goal acc).2 = [] ∧ (dfs g start goal acc).1 ≠ [] ∧
      (∀ x, x ∈ (dfs g start goal acc).1 ↔ Reachable g acc start x)) := by
  obtain ⟨⟨hbnd, hbhd, hbre, hbdisj⟩, -⟩ := bfs_post g hWF start goal acc
  obtain ⟨hdnd, hdhd, hdre, hddisj⟩ := dfs_post g hWF start goal acc
  refine ⟨?_, ?_, ?_⟩
  · intro hne
    rcases hbdisj with ⟨-, hp⟩ | ⟨-, -, hp⟩
    · exact ⟨hp.2.1, hp.2.2.1,
        List.Chain'.imp (fun a b h => traversable_iff_exists.1 h) hp.2.2.2⟩
    · exact absurd hp hne
  · intro hne
    rcases hddisj with ⟨-, hp⟩ | ⟨-, -, hp⟩
    · exact ⟨hp.2.1, hp.2.2.1,
        List.Chain'.imp (fun a b h => traversable_iff_exists.1 h) hp.2.2.2⟩
    · exact absurd hp hne
  · intro hur
    have hb : goal ∉ (bfs g start goal acc).1 ∧
        (∀ x, x ∈ (bfs g start goal acc).1 ↔ Reachable g acc start x) ∧
        (bfs g start goal acc).2 = [] := by
      rcases hbdisj with ⟨-, hp⟩ | h
      · exact absurd ⟨_, hp⟩ hur
      · exact h
    have hd : goal ∉ (dfs g start goal acc).1 ∧
        (∀ x, x ∈ (dfs g start goal acc).1 ↔ Reachable g acc start x) ∧
        (dfs g start goal acc).2 = [] := by
      rcases hddisj with ⟨-, hp⟩ | h
      · exact absurd ⟨_, hp⟩ hur
      · exact h
    exact ⟨hb.2.2, ne_nil_of_head?_eq hbhd, hb.2.1,
      hd.2.2, ne_nil_of_head?_eq hdhd, hd.2.1⟩

/-- C3 witness at the demo fixture. -/
theorem traversal_path_valid_witness :
    WF demoGraph ∧
    (bfs demoGraph "A" "D" false).2.head? = some "A" ∧
    (dfs demoGraph "A" "D" false).2.getLast? = some "D" := by
  have h := traversal_path_valid demoGraph ⟨by decide, by decide⟩ "A" "D" false
  exact ⟨⟨by decide, by decide⟩, (h.1 (by decide)).1, (h.2.1 (by decide)).2.1⟩

/-- C8: for both engines on a well-formed model, the visited order has no
duplicate names, its first element is `start`, and once the goal is
dequeued (BFS) or visited (DFS) nothing further is appended: if the goal
occurs in the order at all, it is its last element. -/
theorem visited_order_props (g : Graph) (hWF : WF g) (start goal : String)
    (acc : Bool) :
    (bfs g start goal acc).1.Nodup ∧
    (bfs g start goal acc).1.head? = some start ∧
    (goal ∈ (bfs g start goal acc).1 →
      (bfs g start goal acc).1.getLast? = some goal) ∧
    (dfs g start goal acc).1.Nodup ∧
    (dfs g start goal acc).1.head? = some start ∧
    (goal ∈ (dfs g start goal acc).1 →
      (dfs g start goal acc).1.getLast? = some goal) := by
  obtain ⟨⟨hbnd, hbhd, -, hbdisj⟩, -⟩ := bfs_post g hWF start goal acc
  obtain ⟨hdnd, hdhd, -, hddisj⟩ := dfs_post g hWF start goal acc
  refine ⟨hbnd, hbhd, ?_, hdnd, hdhd, ?_⟩
  · intro hgo
    rcases hbdisj with ⟨hl, -⟩ | ⟨hno, -⟩
    · exact hl
    · exact absurd hgo hno
  · intro hgo
    rcases hddisj with ⟨hl, -⟩ | ⟨hno, -⟩
    · exact hl
    · exact absurd hgo hno

/-- C8 witness at the demo fixture. -/
theorem visited_order_props_witness :
    (bfs demoGraph "A" "D" false).1.Nodup ∧
    (bfs demoGraph "A" "D" false).1.head? = some "A" ∧
    (dfs demoGraph "A" "D" false).1.getLast? = some "D" := by
  have h := visited_order_props demoGraph ⟨by decide, by decide⟩ "A" "D" false
  exact ⟨h.1, h.2.1, h.2.2.2.2.2 (by decide)⟩

/-- C10: with `start = goal` an existing node, both engines return without
error, with visited order `[s]` and path `[s]`: the degenerate request is
solved immediately by the engines themselves. -/
theorem trivial_search (g : Graph) (s : String) (acc : Bool)
    (hs : (assocFind g.nodes s).isSome) :
    bfs g s s acc = ([s], [s]) ∧ dfs g s s acc = ([s], [s]) := by
  have hrec : reconstructPath [(s, (none : Option String))] s s = [s] :=
    pchain_reconstruct (by simp) (PChain.root s (by simp [assocFind])) rfl
  constructor
  · simp [bfs, bfsLoop, hrec]
  · simp [dfs, dfsVisit, hrec]

/-- C10 witness at the demo fixture. -/
theorem trivial_search_witness :
    bfs demoGraph "A" "A" false = (["A"], ["A"]) ∧
    dfs demoGraph "A" "A" false = (["A"], ["A"]) :=
  trivial_search demoGraph "A" false (by decide)
